import Mathlib

/-!
Verification development for the Lichess PGN streaming parser (`src/main.py`).

The Python source is shallowly embedded below:
* strings are `List Char` (Python text-mode files with `\n` separators);
* Python `int` is `Int`, `datetime`/`time` are validated records;
* fallible Python code returns `Option`/`Except`;
* the regular expression `(\[[^\]]+\s"[^"]+"\]\n?)+\n{2}.*(1-0|0-1|1/2-1/2)`
  is embedded by a backtracking matcher in continuation-passing style whose
  choice points are explored in exactly the preference order of CPython's
  `re` engine (greedy quantifiers try the longest extent first, alternatives
  left to right, `finditer` scans left to right and resumes at each match end);
* the generator `parse_games` is a fold over the chunk list; its outputs are
  the yielded games interleaved with the rejection reports that the source
  sends to its logger.

Unicode caveat: `\s`, `str.lower()` and `int()` are modelled on the
characters with code points below 256 (the parser's corpora are ASCII).
-/

/-! ## Python primitives -/

/-- The characters below 256 matched by `\s` in a CPython `str` pattern
(also the whitespace stripped by `int()`): TAB, LF, VT, FF, CR, FS, GS, RS,
US, space, NEL, NBSP. -/
def isPySpace (c : Char) : Bool :=
  c = '\t' || c = '\n' || c.toNat = 11 || c.toNat = 12 || c = '\r' ||
  c.toNat = 28 || c.toNat = 29 || c.toNat = 30 || c.toNat = 31 ||
  c = ' ' || c.toNat = 133 || c.toNat = 160

/-- `str.lower()` on the ASCII range. -/
def pyLower (c : Char) : Char :=
  if 'A' ≤ c && c ≤ 'Z' then Char.ofNat (c.toNat + 32) else c

def isDigitC (c : Char) : Bool := '0' ≤ c && c ≤ '9'

def digitVal (c : Char) : Nat := c.toNat - 48

/-- Digit tail of a CPython integer literal: digits with single underscores
allowed between digits only. `acc` is the value accumulated so far. -/
def digitsUnd : Nat → List Char → Option Nat
  | acc, [] => some acc
  | acc, c :: rest =>
    if isDigitC c then digitsUnd (acc * 10 + digitVal c) rest
    else if c = '_' then
      match rest with
      | [] => none
      | d :: _ => if isDigitC d then digitsUnd acc rest else none
    else none

/-- Nonempty digit group (first character must be a digit). -/
def parseDigits : List Char → Option Nat
  | [] => none
  | c :: rest => if isDigitC c then digitsUnd (digitVal c) rest else none

/-- CPython `int(s)`: strip whitespace, optional sign, digits with
underscore separators; `none` models `ValueError`. -/
def pyIntOfList (l : List Char) : Option Int :=
  let t := ((l.dropWhile isPySpace).reverse.dropWhile isPySpace).reverse
  match t with
  | '+' :: rest => (parseDigits rest).map (fun n => (n : Int))
  | '-' :: rest => (parseDigits rest).map (fun n => -(n : Int))
  | rest => (parseDigits rest).map (fun n => (n : Int))

def pyIntOfString (s : String) : Option Int := pyIntOfList s.data

/-- Python `datetime.datetime` restricted to its date part (the parser only
ever builds midnight datetimes). -/
structure PyDate where
  year : Int
  month : Int
  day : Int
deriving DecidableEq, Repr

/-- Python `datetime.time`. -/
structure PyTime where
  hour : Int
  minute : Int
  second : Int
deriving DecidableEq, Repr

def isLeapYear (y : Int) : Bool := (y % 4 = 0 && y % 100 ≠ 0) || y % 400 = 0

def daysInMonth (y m : Int) : Int :=
  if m = 2 then (if isLeapYear y then 29 else 28)
  else if m = 4 || m = 6 || m = 9 || m = 11 then 30
  else 31

/-- `datetime.datetime(y, m, d)`; `none` models `ValueError`. -/
def mkDatetime (y m d : Int) : Option PyDate :=
  if 1 ≤ y && y ≤ 9999 && 1 ≤ m && m ≤ 12 && 1 ≤ d && d ≤ daysInMonth y m then
    some ⟨y, m, d⟩
  else none

/-- `datetime.time(h, m, s)`; `none` models `ValueError`. -/
def mkTime (h m s : Int) : Option PyTime :=
  if 0 ≤ h && h ≤ 23 && 0 ≤ m && m ≤ 59 && 0 ≤ s && s ≤ 59 then
    some ⟨h, m, s⟩
  else none

/-- Python `str.split(sep)` for nonempty `sep`, with fuel (each step consumes
at least one character, so `l.length` fuel always suffices). -/
def splitOnSepAux (sep : List Char) : Nat → List Char → List Char → List (List Char)
  | 0, acc, _ => [acc.reverse]
  | _ + 1, acc, [] => [acc.reverse]
  | fuel + 1, acc, c :: rest =>
    if sep.isPrefixOf (c :: rest) then
      acc.reverse :: splitOnSepAux sep fuel [] ((c :: rest).drop sep.length)
    else splitOnSepAux sep fuel (c :: acc) rest

def splitOnSep (sep l : List Char) : List (List Char) :=
  if sep = [] then [l] else splitOnSepAux sep l.length [] l

/-! ## Source: generic functions and data class (`str_to_date`, `str_to_time`,
`ChessGame`) -/

/-- `str_to_date`: split on `.`, convert every part with `int` (the list
comprehension runs `int` on all parts before the arity check), require three
parts, build the datetime. `none` models the raised `ValueError`. -/
def str_to_date (input_str : String) : Option PyDate :=
  match (splitOnSep ([ '.' ]) input_str.data).mapM (fun p => pyIntOfList p) with
  | none => none
  | some parts =>
    match parts with
    | [y, m, d] => mkDatetime y m d
    | _ => none

/-- `str_to_time`: split on `:`, convert with `int`, require three parts,
build the time. -/
def str_to_time (input_str : String) : Option PyTime :=
  match (splitOnSep ([ ':' ]) input_str.data).mapM (fun p => pyIntOfList p) with
  | none => none
  | some parts =>
    match parts with
    | [h, m, s] => mkTime h m s
    | _ => none

/-- A Python value as it can appear in the dict handed to `ChessGame`;
`vnone` is Python `None`, which `dict.get(attr, None)` also returns for a
missing key. -/
inductive PyValue where
  | vnone
  | vstr (s : String)
  | vint (n : Int)
  | vdate (d : PyDate)
  | vtime (t : PyTime)
deriving DecidableEq, Repr

def padTwo (n : Int) : String :=
  if n < 10 then ("0" ++ toString n) else toString n

def padFour (n : Int) : String :=
  if n < 10 then ("000" ++ toString n)
  else if n < 100 then ("00" ++ toString n)
  else if n < 1000 then ("0" ++ toString n)
  else toString n

/-- Python `str(value)` for the values above (never raises). -/
def pyStr : PyValue → String
  | .vnone => "None"
  | .vstr s => s
  | .vint n => toString n
  | .vdate d =>
    padFour d.year ++ "-" ++ padTwo d.month ++ "-" ++ padTwo d.day ++ " 00:00:00"
  | .vtime t => padTwo t.hour ++ ":" ++ padTwo t.minute ++ ":" ++ padTwo t.second

/-- The payload of a `PgnParserException`. -/
inductive Reason where
  | attrNotFound (attr : String)
  | castFailure (v : PyValue) (attr : String)
  | malformedHeader (line : String)
  | wrongPartCount
deriving DecidableEq, Repr

/-- An exception escaping `pgn_to_chessgame`: either a `PgnParserException`
(caught by `parse_games`' per-match loop) or the `IndexError` raised by
`split_pgn[1]` (not caught anywhere). -/
inductive PyError where
  | pgnExc (r : Reason)
  | indexError
deriving DecidableEq, Repr

/-- The `ChessGame` record, one field per annotation of the source class. -/
structure ChessGame where
  event : String
  site : String
  white : String
  black : String
  result : String
  eco : String
  opening : String
  timecontrol : String
  termination : String
  moves : String
  utcdate : PyDate
  utctime : PyTime
  whiteelo : Int
  blackelo : Int
deriving DecidableEq, Repr

/-- A Python dict with string keys; a missing key reads as `vnone`,
matching `input_dict.get(attr, None)`. -/
def FieldMap : Type := String → PyValue

def emptyMap : FieldMap := fun _ => PyValue.vnone

def updateMap (d : FieldMap) (k : String) (v : PyValue) : FieldMap :=
  fun x => if x = k then v else d x

/-- One iteration of the `ChessGame.__init__` loop for a `str`-annotated
attribute: `isinstance` passes a `str` through, `None` means the attribute is
missing, any other value is coerced with `str(value)` (which never raises). -/
def getAttrStr (d : FieldMap) (attr : String) : Except Reason String :=
  match d attr with
  | .vstr s => .ok s
  | .vnone => .error (.attrNotFound attr)
  | v => .ok (pyStr v)

/-- Loop iteration for a `datetime`-annotated attribute: non-`str` values make
`str_to_date` raise (`.split` on a non-string), caught as a cast failure. -/
def getAttrDate (d : FieldMap) (attr : String) : Except Reason PyDate :=
  match d attr with
  | .vdate dt => .ok dt
  | .vnone => .error (.attrNotFound attr)
  | .vstr s =>
    match str_to_date s with
    | some dt => .ok dt
    | none => .error (.castFailure (.vstr s) attr)
  | v => .error (.castFailure v attr)

/-- Loop iteration for a `time`-annotated attribute. -/
def getAttrTime (d : FieldMap) (attr : String) : Except Reason PyTime :=
  match d attr with
  | .vtime t => .ok t
  | .vnone => .error (.attrNotFound attr)
  | .vstr s =>
    match str_to_time s with
    | some t => .ok t
    | none => .error (.castFailure (.vstr s) attr)
  | v => .error (.castFailure v attr)

/-- Loop iteration for an `int`-annotated attribute (`int(value)` raises
`ValueError` on a bad string and `TypeError` on a datetime/time). -/
def getAttrInt (d : FieldMap) (attr : String) : Except Reason Int :=
  match d attr with
  | .vint n => .ok n
  | .vnone => .error (.attrNotFound attr)
  | .vstr s =>
    match pyIntOfString s with
    | some n => .ok n
    | none => .error (.castFailure (.vstr s) attr)
  | v => .error (.castFailure v attr)

/-- `ChessGame.__init__`: the `__annotations__` loop unrolled in declaration
order (`event, site, white, black, result, eco, opening, timecontrol,
termination, moves, utcdate, utctime, whiteelo, blackelo`); the first failing
attribute raises `PgnParserException`. -/
def chessGameInit (d : FieldMap) : Except Reason ChessGame := do
  let event ← getAttrStr d ("event")
  let site ← getAttrStr d ("site")
  let white ← getAttrStr d ("white")
  let black ← getAttrStr d ("black")
  let result ← getAttrStr d ("result")
  let eco ← getAttrStr d ("eco")
  let opening ← getAttrStr d ("opening")
  let timecontrol ← getAttrStr d ("timecontrol")
  let termination ← getAttrStr d ("termination")
  let moves ← getAttrStr d ("moves")
  let utcdate ← getAttrDate d ("utcdate")
  let utctime ← getAttrTime d ("utctime")
  let whiteelo ← getAttrInt d ("whiteelo")
  let blackelo ← getAttrInt d ("blackelo")
  pure ⟨event, site, white, black, result, eco, opening, timecontrol,
        termination, moves, utcdate, utctime, whiteelo, blackelo⟩

/-- The 14 schema attribute names, in annotation order. -/
def schemaNames : List String :=
  ["event", "site", "white", "black", "result", "eco", "opening",
   "timecontrol", "termination", "moves", "utcdate", "utctime",
   "whiteelo", "blackelo"]

/-! ## Source: the compiled pattern
`(\[[^\]]+\s"[^"]+"\]\n?)+\n{2}.*(1-0|0-1|1/2-1/2)`

Continuation-passing matchers: a matcher receives the continuation `k` and
the remaining input; it returns the total number of characters consumed by
itself plus `k`, or `none` when no alternative lets `k` succeed. Choice
points are tried in CPython preference order. -/

/-- The alternation `(1-0|0-1|1/2-1/2)` at the current position (branches
tried left to right; their first characters are mutually exclusive). -/
def tokAt (s : List Char) : Option Nat :=
  if ([ '1', '-', '0' ] : List Char).isPrefixOf s then some 3
  else if ([ '0', '-', '1' ] : List Char).isPrefixOf s then some 3
  else if ([ '1', '/', '2', '-', '1', '/', '2' ] : List Char).isPrefixOf s then some 7
  else none

/-- `.*(1-0|0-1|1/2-1/2)`: `.` does not match a newline, `.*` is greedy, so
the match ends at the last result token on the current line. -/
def dotStarTok : List Char → Option Nat
  | [] => none
  | c :: rest =>
    if c = '\n' then tokAt (c :: rest)
    else
      match dotStarTok rest with
      | some n => some (n + 1)
      | none => tokAt (c :: rest)

/-- Reference form of `dotStarTok` on a single line (no trailing text): end
offset of the last result token. -/
def lastTokEnd : List Char → Option Nat
  | [] => none
  | c :: rest =>
    match lastTokEnd rest with
    | some n => some (n + 1)
    | none => tokAt (c :: rest)

/-- Single character class. -/
def charM (p : Char → Bool) (k : List Char → Option Nat) : List Char → Option Nat
  | [] => none
  | c :: rest => if p c then (k rest).map (· + 1) else none

/-- Greedy `\n?`: try consuming the newline first, fall back to the empty
match. -/
def optNl (k : List Char → Option Nat) : List Char → Option Nat
  | [] => k []
  | c :: rest =>
    if c = '\n' then
      match (k rest).map (· + 1) with
      | some n => some n
      | none => k (c :: rest)
    else k (c :: rest)

/-- Greedy `[class]*` with backtracking: consume as many `p`-characters as
possible, retrying `k` at every shorter extent down to the empty one. -/
def starClass (p : Char → Bool) (k : List Char → Option Nat) : List Char → Option Nat
  | [] => k []
  | c :: rest =>
    if p c then
      match (starClass p k rest).map (· + 1) with
      | some n => some n
      | none => k (c :: rest)
    else k (c :: rest)

/-- Greedy `[class]+`: one mandatory character, then `[class]*`. -/
def plusClass (p : Char → Bool) (k : List Char → Option Nat) : List Char → Option Nat
  | [] => none
  | c :: rest => if p c then (starClass p k rest).map (· + 1) else none

/-- One header atom `\[[^\]]+\s"[^"]+"\]\n?`. -/
def headerAtom (k : List Char → Option Nat) : List Char → Option Nat :=
  charM (fun c => c == '[')
    (plusClass (fun c => !(c == ']'))
      (charM isPySpace
        (charM (fun c => c == '"')
          (plusClass (fun c => !(c == '"'))
            (charM (fun c => c == '"')
              (charM (fun c => c == ']')
                (optNl k)))))))

/-- Zero or more further header atoms (greedy), with fuel; every atom
consumes at least seven characters, so `length` fuel always suffices. -/
def headersStar (k : List Char → Option Nat) : Nat → List Char → Option Nat
  | 0, s => k s
  | fuel + 1, s =>
    match headerAtom (headersStar k fuel) s with
    | some n => some n
    | none => k s

/-- `\n{2}` then the body. -/
def pgnBody : List Char → Option Nat :=
  charM (fun c => c == '\n') (charM (fun c => c == '\n') dotStarTok)

/-- A match attempt of the full `pgn_pattern` anchored at the head of `s`
(the `+` is one atom followed by the starred atoms). -/
def pgn_match_at (s : List Char) : Option Nat :=
  headerAtom (headersStar pgnBody s.length) s

/-- `re.finditer`: scan left to right, attempt at every position, resume
after each match end (one past it for an empty match, which this pattern
cannot produce). With fuel; every step consumes at least one character. -/
def finditerAux : Nat → List Char → Nat → List (Nat × Nat)
  | 0, _, _ => []
  | fuel + 1, s, pos =>
    match pgn_match_at s with
    | some n =>
      (pos, pos + n) ::
        (if n = 0 then finditerAux fuel (s.drop 1) (pos + 1)
         else finditerAux fuel (s.drop n) (pos + n))
    | none =>
      match s with
      | [] => []
      | _ :: rest => finditerAux fuel rest (pos + 1)

def finditer (s : List Char) : List (Nat × Nat) :=
  finditerAux (s.length + 1) s 0

/-! ## Source: `pgn_to_chessgame` -/

def pgnDelim : List Char := [ '\n', '\n' ]

/-- `str.rstrip('"')`. -/
def rstripQuote (l : List Char) : List Char :=
  (l.reverse.dropWhile (fun c => c == '"')).reverse

/-- One header line: `header[1:-1]` (trim `[` and `]`), split on `' "'`,
require `[`-start, `]`-end and exactly two parts; lowercase the name, strip
trailing quotes from the value. `none` models the malformed-header raise. -/
def parseHeaderLine (line : List Char) : Option (String × String) :=
  let inner := (line.drop 1).dropLast
  match line.head?, line.getLast?, splitOnSep ([ ' ', '"' ]) inner with
  | some '[', some ']', [n, v] =>
    some (String.mk (n.map pyLower), String.mk (rstripQuote v))
  | _, _, _ => none

/-- The header loop of `pgn_to_chessgame`: build the dict, last write wins. -/
def buildDictAux : FieldMap → List (List Char) → Except PyError FieldMap
  | d, [] => .ok d
  | d, line :: rest =>
    match parseHeaderLine line with
    | some (n, v) => buildDictAux (updateMap d n (PyValue.vstr v)) rest
    | none => .error (.pgnExc (.malformedHeader (String.mk line)))

/-- `pgn_to_chessgame`: split the block on the blank-line delimiter.
`split_pgn[1]` is indexed *before* the part-count check, so a one-part split
raises `IndexError` (uncaught); three or more parts raise the
wrong-part-count `PgnParserException`. -/
def pgn_to_chessgame (pgn_string : List Char) : Except PyError ChessGame :=
  match splitOnSep pgnDelim pgn_string with
  | [] => .error .indexError
  | [_] => .error .indexError
  | headers :: moves :: rest =>
    if rest ≠ [] then .error (.pgnExc .wrongPartCount)
    else
      match buildDictAux emptyMap (splitOnSep ([ '\n' ]) headers) with
      | .error e => .error e
      | .ok d =>
        (chessGameInit (updateMap d ("moves") (PyValue.vstr (String.mk moves)))).mapError
          PyError.pgnExc

/-! ## Source: `parse_games` -/

/-- One consumer-visible event of the generator: a yielded game or a
rejection report (line number and reason sent to the logger). -/
inductive GameResult where
  | ok (g : ChessGame)
  | rejected (line : Int) (reason : Reason)
deriving DecidableEq, Repr

/-- A fatal (stream-terminating) Python exception inside `parse_games`:
`UnboundLocalError` from `if match:` when no match was ever assigned;
`IndexError` escaping `pgn_to_chessgame`; and the `Exception` raised by the
overflow check (kept for reference: it sits in the `else` branch of
`if match:`, which only runs when `match` is bound and falsy — a bound
`re.Match` is always truthy, so that branch is dead code). -/
inductive Fatal where
  | unboundLocal
  | indexError
  | increaseBuffer
deriving DecidableEq, Repr

/-- `match.group()`: the slice `data[s:e]`. -/
def extractL (data : List Char) (s e : Nat) : List Char :=
  (data.drop s).take (e - s)

/-- The `for match in re.finditer(...)` loop body over the computed spans:
yield the game, or catch the `PgnParserException` and report it at
`current_line + data[:match.start()].count('\n')`. -/
def processMatches (data : List Char) (currentLine : Int) :
    List (Nat × Nat) → Except Fatal (List GameResult)
  | [] => .ok []
  | (s, e) :: rest =>
    match pgn_to_chessgame (extractL data s e) with
    | .ok g =>
      (processMatches data currentLine rest).map (fun out => GameResult.ok g :: out)
    | .error (.pgnExc r) =>
      let matchLine := currentLine + ((data.take s).count '\n' : Int)
      (processMatches data currentLine rest).map
        (fun out => GameResult.rejected matchLine r :: out)
    | .error .indexError => .error .indexError

/-- The loop state of `parse_games`: the leftover carried between chunks,
the `match` local variable (`none` = never assigned; a bound match is
remembered by its `end()` offset, an index into the window it was found in),
and the `chunk_pos` line bookkeeping. -/
structure PState where
  leftover : List Char
  lastEnd : Option Nat
  chunkStart : Int
  chunkEnd : Int
deriving DecidableEq, Repr

def initState : PState :=
  { leftover := [], lastEnd := none, chunkStart := 1, chunkEnd := 1 }

/-- One iteration of the `while` loop of `parse_games` on one chunk.
After the match loop, `if match:` reads the `match` variable: if it was
never assigned this raises `UnboundLocalError`; otherwise the (possibly
stale, previous-window) match is truthy and the leftover becomes
`data[match.end():]`. -/
def stepChunk (st : PState) (chunk : List Char) : Except Fatal (PState × List GameResult) :=
  let start := st.chunkEnd
  let endL := start + (chunk.count '\n' : Int)
  let data := st.leftover ++ chunk
  let currentLine := start - (st.leftover.count '\n' : Int)
  let ms := finditer data
  match processMatches data currentLine ms with
  | .error f => .error f
  | .ok outs =>
    let newLast : Option Nat :=
      match ms.getLast? with
      | some me => some me.2
      | none => st.lastEnd
    match newLast with
    | none => .error Fatal.unboundLocal
    | some e =>
      .ok ({ leftover := data.drop e, lastEnd := newLast,
             chunkStart := start, chunkEnd := endL }, outs)

/-- `f.read(buffer_size)` until empty: the chunk list (with fuel; a positive
chunk size consumes at least one character per step). -/
def chunksOfAux (b : Nat) : Nat → List Char → List (List Char)
  | _, [] => []
  | 0, _ => []
  | fuel + 1, l => l.take b :: chunksOfAux b fuel (l.drop b)

def chunksOf (b : Nat) (l : List Char) : List (List Char) :=
  if b = 0 then [] else chunksOfAux b l.length l

def runChunks : PState → List (List Char) → Except Fatal (List GameResult)
  | _, [] => .ok []
  | st, c :: cs => do
    let r ← stepChunk st c
    let rest ← runChunks r.1 cs
    .ok (r.2 ++ rest)

/-- `parse_games` on a whole file, fully consumed: the sequence of yielded
games and rejection reports, or the fatal exception that stopped it. -/
def parse_games (file : List Char) (buffer_size : Nat) : Except Fatal (List GameResult) :=
  runChunks initState (chunksOf buffer_size file)

/-! ## Concrete corpora used by the theorems -/

/-- The §8 P6 sample input: 13 header lines, a blank line, the movetext
line, a trailing blank line. -/
def p6sample : List Char :=
  ("[Event \"Rated Blitz game\"]\n[Site \"https://lichess.org/abcd1234\"]\n[White \"alice\"]\n[Black \"bob\"]\n[Result \"1-0\"]\n[ECO \"B01\"]\n[Opening \"Scandinavian\"]\n[TimeControl \"300+0\"]\n[Termination \"Normal\"]\n[UTCDate \"2013.01.01\"]\n[UTCTime \"12:00:00\"]\n[WhiteElo \"1500\"]\n[BlackElo \"1490\"]\n\n1. e4 d5 2. exd5 Qxd5 1-0\n\n").data

/-- The record the P6 sample describes. -/
def p6game : ChessGame :=
  { event := "Rated Blitz game", site := "https://lichess.org/abcd1234",
    white := "alice", black := "bob", result := "1-0", eco := "B01",
    opening := "Scandinavian", timecontrol := "300+0", termination := "Normal",
    moves := "1. e4 d5 2. exd5 Qxd5 1-0",
    utcdate := { year := 2013, month := 1, day := 1 },
    utctime := { hour := 12, minute := 0, second := 0 },
    whiteelo := 1500, blackelo := 1490 }

/-- The P6 raw block (what the pattern matches: the sample without the
trailing blank lines). -/
def p6block : List Char :=
  ("[Event \"Rated Blitz game\"]\n[Site \"https://lichess.org/abcd1234\"]\n[White \"alice\"]\n[Black \"bob\"]\n[Result \"1-0\"]\n[ECO \"B01\"]\n[Opening \"Scandinavian\"]\n[TimeControl \"300+0\"]\n[Termination \"Normal\"]\n[UTCDate \"2013.01.01\"]\n[UTCTime \"12:00:00\"]\n[WhiteElo \"1500\"]\n[BlackElo \"1490\"]\n\n1. e4 d5 2. exd5 Qxd5 1-0").data

/-- The P6 block with `[WhiteElo "abc"]`. -/
def blockEloAbc : List Char :=
  ("[Event \"Rated Blitz game\"]\n[Site \"https://lichess.org/abcd1234\"]\n[White \"alice\"]\n[Black \"bob\"]\n[Result \"1-0\"]\n[ECO \"B01\"]\n[Opening \"Scandinavian\"]\n[TimeControl \"300+0\"]\n[Termination \"Normal\"]\n[UTCDate \"2013.01.01\"]\n[UTCTime \"12:00:00\"]\n[WhiteElo \"abc\"]\n[BlackElo \"1490\"]\n\n1. e4 d5 2. exd5 Qxd5 1-0").data

/-- The P6 block with `[UTCDate "2013-01-01"]` (wrong delimiter). -/
def blockDateDash : List Char :=
  ("[Event \"Rated Blitz game\"]\n[Site \"https://lichess.org/abcd1234\"]\n[White \"alice\"]\n[Black \"bob\"]\n[Result \"1-0\"]\n[ECO \"B01\"]\n[Opening \"Scandinavian\"]\n[TimeControl \"300+0\"]\n[Termination \"Normal\"]\n[UTCDate \"2013-01-01\"]\n[UTCTime \"12:00:00\"]\n[WhiteElo \"1500\"]\n[BlackElo \"1490\"]\n\n1. e4 d5 2. exd5 Qxd5 1-0").data

/-- A minimal block matching the pattern (its decode is rejected for the
missing schema headers, which is irrelevant to window bookkeeping). -/
def tinyRecord : List Char := ("[A \"b\"]\n\n1-0\n\n").data

/-- A chunk with no pattern match (start of a next record). -/
def tinyTail : List Char := ("[Event \"x\n").data

/-- The state `parse_games` reaches after a chunk holding exactly
`tinyRecord`: the match ended at offset 12, two newline characters remain. -/
def tinyState : PState :=
  { leftover := [ '\n', '\n' ], lastEnd := some 12, chunkStart := 1, chunkEnd := 5 }

/-- The conjunction "every schema attribute of `g` is the successful
coercion of its entry in `d`" (one conjunct per annotation, in order). -/
def AllCoerced (d : FieldMap) (g : ChessGame) : Prop :=
  getAttrStr d ("event") = .ok g.event ∧
  getAttrStr d ("site") = .ok g.site ∧
  getAttrStr d ("white") = .ok g.white ∧
  getAttrStr d ("black") = .ok g.black ∧
  getAttrStr d ("result") = .ok g.result ∧
  getAttrStr d ("eco") = .ok g.eco ∧
  getAttrStr d ("opening") = .ok g.opening ∧
  getAttrStr d ("timecontrol") = .ok g.timecontrol ∧
  getAttrStr d ("termination") = .ok g.termination ∧
  getAttrStr d ("moves") = .ok g.moves ∧
  getAttrDate d ("utcdate") = .ok g.utcdate ∧
  getAttrTime d ("utctime") = .ok g.utctime ∧
  getAttrInt d ("whiteelo") = .ok g.whiteelo ∧
  getAttrInt d ("blackelo") = .ok g.blackelo

/-! ## Annotated extractor: the same chunk loop recording, for each
rejection, the absolute source position and the matched block (used to state
line-number accuracy; `eraseA` recovers the source-faithful outputs) -/

def KBound (k : List Char → Option Nat) : Prop :=
  ∀ s n, k s = some n → n ≤ s.length
inductive GameResultA where
  | okA (g : ChessGame)
  | rejectedA (line : Int) (reason : Reason) (srcPos : Nat) (block : List Char)
deriving DecidableEq, Repr
def eraseA : GameResultA → GameResult
  | .okA g => .ok g
  | .rejectedA l r _ _ => .rejected l r
def processMatchesA (data : List Char) (currentLine : Int) (winStart : Nat) :
    List (Nat × Nat) → Except Fatal (List GameResultA)
  | [] => .ok []
  | (s, e) :: rest =>
    match pgn_to_chessgame (extractL data s e) with
    | .ok g =>
      (processMatchesA data currentLine winStart rest).map
        (fun out => GameResultA.okA g :: out)
    | .error (.pgnExc r) =>
      let matchLine := currentLine + ((data.take s).count '\n' : Int)
      (processMatchesA data currentLine winStart rest).map
        (fun out => GameResultA.rejectedA matchLine r (winStart + s) (extractL data s e) :: out)
    | .error .indexError => .error .indexError
def stepChunkA (st : PState) (consumed : Nat) (chunk : List Char) :
    Except Fatal (PState × List GameResultA) :=
  let start := st.chunkEnd
  let endL := start + (chunk.count '\n' : Int)
  let data := st.leftover ++ chunk
  let currentLine := start - (st.leftover.count '\n' : Int)
  let ms := finditer data
  match processMatchesA data currentLine (consumed - st.leftover.length) ms with
  | .error f => .error f
  | .ok outs =>
    let newLast : Option Nat :=
      match ms.getLast? with
      | some me => some me.2
      | none => st.lastEnd
    match newLast with
    | none => .error Fatal.unboundLocal
    | some e =>
      .ok ({ leftover := data.drop e, lastEnd := newLast,
             chunkStart := start, chunkEnd := endL }, outs)
def runChunksA : PState → Nat → List (List Char) → Except Fatal (List GameResultA)
  | _, _, [] => .ok []
  | st, consumed, c :: cs => do
    let r ← stepChunkA st consumed c
    let rest ← runChunksA r.1 (consumed + c.length) cs
    .ok (r.2 ++ rest)
def parse_gamesA (file : List Char) (buffer_size : Nat) : Except Fatal (List GameResultA) :=
  runChunksA initState 0 (chunksOf buffer_size file)
def AnnOk (f : List Char) : GameResultA → Prop
  | .okA _ => True
  | .rejectedA l _ p blk =>
    l = 1 + ((f.take p).count '\n' : Int) ∧
    blk = extractL f p (p + blk.length) ∧
    p + blk.length ≤ f.length
def SuffixState (p : List Char) (st : PState) : Prop :=
  st.chunkEnd = 1 + (p.count '\n' : Int) ∧
  ∃ q, q ≤ p.length ∧ st.leftover = p.drop q
/-- A two-record corpus whose records both decode to rejections (each lacks
the schema headers). -/
def c4corpus : List Char := ("[A \"b\"]\n\n1-0\n\n[C \"d\"]\n\n0-1\n\n").data

/-- The second matched block of `c4corpus` (source position 14, line 5). -/
def c4blockC : List Char := ("[C \"d\"]\n\n0-1").data

/-- The first matched block of `c4corpus`. -/
def c4blockA : List Char := ("[A \"b\"]\n\n1-0").data

/-- A complete field map (all 14 schema names mapped to coercible strings). -/
def c10base : FieldMap :=
  updateMap (updateMap (updateMap (updateMap (updateMap (updateMap (updateMap
    (updateMap (updateMap (updateMap (updateMap (updateMap (updateMap (updateMap
      emptyMap
      ("event") (.vstr ("e"))) ("site") (.vstr ("s"))) ("white") (.vstr ("w")))
      ("black") (.vstr ("b"))) ("result") (.vstr ("1-0"))) ("eco") (.vstr ("A00")))
      ("opening") (.vstr ("o"))) ("timecontrol") (.vstr ("60+0")))
      ("termination") (.vstr ("n"))) ("moves") (.vstr ("1-0")))
      ("utcdate") (.vstr ("2013.01.01"))) ("utctime") (.vstr ("12:00:00")))
      ("whiteelo") (.vstr ("1500"))) ("blackelo") (.vstr ("1490"))

/-- `c10base` with one extra, non-schema key. -/
def c10ext : FieldMap := updateMap c10base ("lichessid") (.vstr ("zzz"))

/-! ## Rendered-corpus model: data for valid lichess-shaped records,
their rendering, and the decidable shape predicate (used by the
isolation claim) -/

structure HeaderData where
  name : List Char
  value : List Char
deriving DecidableEq, Repr

structure RecordData where
  headers : List HeaderData
  moves : List Char
deriving DecidableEq, Repr

def headerLineOf (h : HeaderData) : List Char :=
  '[' :: (h.name ++ ' ' :: '"' :: (h.value ++ [ '"', ']' ]))

def joinLines (ls : List (List Char)) : List Char :=
  (ls.map (fun l => l ++ [ '\n' ])).flatten

def blockOf (r : RecordData) : List Char :=
  joinLines (r.headers.map headerLineOf) ++ '\n' :: r.moves

def renderRecord (r : RecordData) : List Char := blockOf r ++ [ '\n', '\n' ]

def corpusOf (rs : List RecordData) : List Char := (rs.map renderRecord).flatten

def ValidHeader (h : HeaderData) : Prop :=
  h.name ≠ [] ∧ (∀ c ∈ h.name, isPySpace c = false ∧ c ≠ ']' ∧ c ≠ '"') ∧
  h.value ≠ [] ∧ (∀ c ∈ h.value, c ≠ '"' ∧ c ≠ ']' ∧ c ≠ '\n') ∧
  (∀ c, h.value.getLast? = some c → isPySpace c = false)

def ShapeValid (r : RecordData) : Prop :=
  r.headers ≠ [] ∧ (∀ h ∈ r.headers, ValidHeader h) ∧
  r.moves ≠ [] ∧ ('\n' ∉ r.moves) ∧ lastTokEnd r.moves = some r.moves.length

def hdrFold (r : RecordData) : FieldMap :=
  r.headers.foldl
    (fun d h => updateMap d (String.mk (h.name.map pyLower)) (PyValue.vstr (String.mk h.value)))
    emptyMap

def dictOf (r : RecordData) : FieldMap :=
  updateMap (hdrFold r) ("moves") (PyValue.vstr (String.mk r.moves))

def atomE (k : List Char → Option Nat) : List Char → Option Nat :=
  charM (fun c => c == '"') (charM (fun c => c == ']') (optNl k))

def atomD (k : List Char → Option Nat) : List Char → Option Nat :=
  plusClass (fun c => !(c == '"')) (atomE k)

def atomC (k : List Char → Option Nat) : List Char → Option Nat :=
  charM (fun c => c == '"') (atomD k)

def atomB (k : List Char → Option Nat) : List Char → Option Nat :=
  charM isPySpace (atomC k)

def spansFrom (pos : Nat) : List RecordData → List (Nat × Nat)
  | [] => []
  | r :: rs =>
    (pos, pos + (blockOf r).length) :: spansFrom (pos + (blockOf r).length + 2) rs

def noTwoNl : List Char → Bool
  | [] => true
  | [_] => true
  | c :: d :: rest => !(c = '\n' && d = '\n') && noTwoNl (d :: rest)

def intercalNl : List (List Char) → List Char
  | [] => []
  | [l] => l
  | l :: l2 :: ls => l ++ '\n' :: intercalNl (l2 :: ls)

def eventOf (line : Int) (r : RecordData) : GameResult :=
  match chessGameInit (dictOf r) with
  | .ok g => GameResult.ok g
  | .error reason => GameResult.rejected line reason

def eventsFrom (file : List Char) (cl : Int) : Nat → List RecordData → List GameResult
  | _, [] => []
  | pos, r :: rs =>
    eventOf (cl + ((file.take pos).count '\n' : Int)) r ::
      eventsFrom file cl (pos + (renderRecord r).length) rs

def validHeaderB (h : HeaderData) : Bool :=
  (!h.name.isEmpty) &&
  h.name.all (fun c => !isPySpace c && !(c == ']') && !(c == '"')) &&
  (!h.value.isEmpty) &&
  h.value.all (fun c => !(c == '"') && !(c == ']') && !(c == '\n')) &&
  (match h.value.getLast? with
   | some c => !isPySpace c
   | none => true)

def shapeValidB (r : RecordData) : Bool :=
  (!r.headers.isEmpty) && r.headers.all validHeaderB &&
  (!r.moves.isEmpty) && r.moves.all (fun c => !(c == '\n')) &&
  (lastTokEnd r.moves == some r.moves.length)

def c2goodRec : RecordData :=
  { headers := [
      ⟨("Event").data, ("Rated Blitz game").data⟩,
      ⟨("Site").data, ("https://lichess.org/abcd1234").data⟩,
      ⟨("White").data, ("alice").data⟩,
      ⟨("Black").data, ("bob").data⟩,
      ⟨("Result").data, ("1-0").data⟩,
      ⟨("ECO").data, ("B01").data⟩,
      ⟨("Opening").data, ("Scandinavian").data⟩,
      ⟨("TimeControl").data, ("300+0").data⟩,
      ⟨("Termination").data, ("Normal").data⟩,
      ⟨("UTCDate").data, ("2013.01.01").data⟩,
      ⟨("UTCTime").data, ("12:00:00").data⟩,
      ⟨("WhiteElo").data, ("1500").data⟩,
      ⟨("BlackElo").data, ("1490").data⟩ ],
    moves := ("1. e4 d5 2. exd5 Qxd5 1-0").data }

def c2badRec : RecordData :=
  { headers := [
      ⟨("Event").data, ("Rated Blitz game").data⟩,
      ⟨("Site").data, ("https://lichess.org/abcd1234").data⟩,
      ⟨("White").data, ("alice").data⟩,
      ⟨("Black").data, ("bob").data⟩,
      ⟨("Result").data, ("1-0").data⟩,
      ⟨("ECO").data, ("B01").data⟩,
      ⟨("Opening").data, ("Scandinavian").data⟩,
      ⟨("TimeControl").data, ("300+0").data⟩,
      ⟨("Termination").data, ("Normal").data⟩,
      ⟨("UTCDate").data, ("2013.01.01").data⟩,
      ⟨("UTCTime").data, ("12:00:00").data⟩,
      ⟨("BlackElo").data, ("1490").data⟩ ],
    moves := ("1. e4 d5 2. exd5 Qxd5 1-0").data }

/-! ## Helper lemmas -/

theorem getLast?_exists_append {α : Type} :
    ∀ {l : List α} {a : α}, l.getLast? = some a → ∃ t, l = t ++ [a]
  | [], a, h => by simp at h
  | [x], a, h => by
    simp [List.getLast?] at h
    exact ⟨[], by simp [h]⟩
  | x :: y :: t, a, h => by
    rw [List.getLast?_cons_cons] at h
    obtain ⟨t2, ht⟩ := getLast?_exists_append h
    exact ⟨x :: t2, by simp [ht]⟩

theorem chessGameInit_ok_getters {d : FieldMap} {g : ChessGame}
    (h : chessGameInit d = .ok g) : AllCoerced d g := by
  unfold chessGameInit at h
  simp only [bind, Except.bind] at h
  repeat' (split at h; try exact absurd h (by simp))
  simp only [pure, Except.pure, Except.ok.injEq] at h
  subst h
  unfold AllCoerced
  simp_all

theorem getAttrStr_congr {d1 d2 : FieldMap} {a : String} (h : d1 a = d2 a) :
    getAttrStr d1 a = getAttrStr d2 a := by unfold getAttrStr; rw [h]

theorem getAttrDate_congr {d1 d2 : FieldMap} {a : String} (h : d1 a = d2 a) :
    getAttrDate d1 a = getAttrDate d2 a := by unfold getAttrDate; rw [h]

theorem getAttrTime_congr {d1 d2 : FieldMap} {a : String} (h : d1 a = d2 a) :
    getAttrTime d1 a = getAttrTime d2 a := by unfold getAttrTime; rw [h]

theorem getAttrInt_congr {d1 d2 : FieldMap} {a : String} (h : d1 a = d2 a) :
    getAttrInt d1 a = getAttrInt d2 a := by unfold getAttrInt; rw [h]

theorem isPrefixOf_length_le {l s : List Char} (h : l.isPrefixOf s = true) :
    l.length ≤ s.length := by
  induction l generalizing s with
  | nil => simp
  | cons c t ih =>
    cases s with
    | nil => simp [List.isPrefixOf] at h
    | cons a s2 =>
      simp only [List.isPrefixOf, Bool.and_eq_true] at h
      simpa using ih h.2

theorem tokAt_le {s : List Char} {n : Nat} (h : tokAt s = some n) : n ≤ s.length := by
  unfold tokAt at h
  split at h
  · rename_i hp
    cases h
    simpa using isPrefixOf_length_le hp
  · split at h
    · rename_i hp
      cases h
      simpa using isPrefixOf_length_le hp
    · split at h
      · rename_i hp
        cases h
        simpa using isPrefixOf_length_le hp
      · cases h

theorem dotStarTok_le : KBound dotStarTok := by
  intro s
  induction s with
  | nil => intro n h; simp [dotStarTok] at h
  | cons c rest ih =>
    intro n h
    simp only [dotStarTok] at h
    split at h
    · exact tokAt_le h
    · split at h
      · rename_i m hm
        cases h
        have := ih m hm
        simp only [List.length_cons]
        omega
      · exact tokAt_le h

theorem charM_le {p : Char → Bool} {k : List Char → Option Nat} (hk : KBound k) :
    KBound (charM p k) := by
  intro s n h
  cases s with
  | nil => simp [charM] at h
  | cons c rest =>
    simp only [charM] at h
    split at h
    · cases hkr : k rest with
      | none => rw [hkr] at h; simp at h
      | some m =>
        rw [hkr] at h
        simp at h
        have := hk rest m hkr
        simp only [List.length_cons]
        omega
    · simp at h

theorem optNl_le {k : List Char → Option Nat} (hk : KBound k) : KBound (optNl k) := by
  intro s n h
  cases s with
  | nil => simpa using hk [] n h
  | cons c rest =>
    simp only [optNl] at h
    split at h
    · split at h
      · rename_i m hm
        cases h
        cases hkr : k rest with
        | none => rw [hkr] at hm; simp at hm
        | some m2 =>
          rw [hkr] at hm
          simp at hm
          have := hk rest m2 hkr
          simp only [List.length_cons]
          omega
      · exact hk _ _ h
    · exact hk _ _ h

theorem starClass_le {p : Char → Bool} {k : List Char → Option Nat} (hk : KBound k) :
    KBound (starClass p k) := by
  intro s
  induction s with
  | nil =>
    intro n h
    exact hk [] n h
  | cons c rest ih =>
    intro n h
    simp only [starClass] at h
    split at h
    · split at h
      · rename_i m hm
        cases h
        cases hsr : starClass p k rest with
        | none => rw [hsr] at hm; simp at hm
        | some m2 =>
          rw [hsr] at hm
          simp at hm
          have := ih m2 hsr
          simp only [List.length_cons]
          omega
      · exact hk _ _ h
    · exact hk _ _ h

theorem plusClass_le {p : Char → Bool} {k : List Char → Option Nat} (hk : KBound k) :
    KBound (plusClass p k) := by
  intro s n h
  cases s with
  | nil => simp [plusClass] at h
  | cons c rest =>
    simp only [plusClass] at h
    split at h
    · cases hsr : starClass p k rest with
      | none => rw [hsr] at h; simp at h
      | some m =>
        rw [hsr] at h
        simp at h
        have := starClass_le hk rest m hsr
        simp only [List.length_cons]
        omega
    · simp at h

theorem headerAtom_le {k : List Char → Option Nat} (hk : KBound k) :
    KBound (headerAtom k) :=
  charM_le (plusClass_le (charM_le (charM_le (plusClass_le
    (charM_le (charM_le (optNl_le hk)))))))

theorem headersStar_le {k : List Char → Option Nat} (hk : KBound k) :
    ∀ fuel, KBound (headersStar k fuel)
  | 0 => hk
  | fuel + 1 => by
    intro s n h
    simp only [headersStar] at h
    cases hha : headerAtom (headersStar k fuel) s with
    | none => rw [hha] at h; exact hk s n h
    | some m =>
      rw [hha] at h
      simp at h
      subst h
      exact headerAtom_le (headersStar_le hk fuel) s m hha

theorem pgnBody_le : KBound pgnBody :=
  charM_le (charM_le dotStarTok_le)

theorem pgn_match_at_le {s : List Char} {n : Nat} (h : pgn_match_at s = some n) :
    n ≤ s.length :=
  headerAtom_le (headersStar_le pgnBody_le s.length) s n h

theorem finditerAux_bounds :
    ∀ (fuel : Nat) (s0 : List Char) (pos a b : Nat),
      (a, b) ∈ finditerAux fuel s0 pos → pos ≤ a ∧ a ≤ b ∧ b ≤ pos + s0.length
  | 0, s0, pos, a, b => by simp [finditerAux]
  | fuel + 1, s0, pos, a, b => by
    intro h
    cases s0 with
    | nil =>
      have hnone : pgn_match_at ([] : List Char) = none := rfl
      simp [finditerAux, hnone] at h
    | cons c0 rest0 =>
      simp only [finditerAux] at h
      cases hm : pgn_match_at (c0 :: rest0) with
      | none =>
        rw [hm] at h
        have := finditerAux_bounds fuel rest0 (pos + 1) a b h
        simp only [List.length_cons]
        omega
      | some n =>
        rw [hm] at h
        have hn := pgn_match_at_le hm
        simp only [List.length_cons] at hn
        simp only [List.mem_cons] at h
        rcases h with h | h
        · cases h
          simp only [List.length_cons]
          omega
        · split at h
          · have := finditerAux_bounds fuel ((c0 :: rest0).drop 1) (pos + 1) a b h
            simp only [List.length_drop, List.length_cons] at this
            simp only [List.length_cons]
            omega
          · have := finditerAux_bounds fuel ((c0 :: rest0).drop n) (pos + n) a b h
            simp only [List.length_drop, List.length_cons] at this
            simp only [List.length_cons]
            omega

theorem finditer_bounds {data : List Char} {a b : Nat}
    (h : (a, b) ∈ finditer data) : a ≤ b ∧ b ≤ data.length := by
  have := finditerAux_bounds (data.length + 1) data 0 a b h
  omega

theorem processMatches_eraseA (data : List Char) (cl : Int) (w : Nat) :
    ∀ ms, processMatches data cl ms =
      (processMatchesA data cl w ms).map (List.map eraseA)
  | [] => by simp [processMatches, processMatchesA, Except.map]
  | (s, e) :: rest => by
    have ih := processMatches_eraseA data cl w rest
    unfold processMatches processMatchesA
    cases hp : pgn_to_chessgame (extractL data s e) with
    | ok g =>
      rw [ih]
      cases processMatchesA data cl w rest <;> simp [Except.map, eraseA]
    | error pe =>
      cases pe with
      | pgnExc r =>
        rw [ih]
        cases processMatchesA data cl w rest <;> simp [Except.map, eraseA]
      | indexError => simp [Except.map]

theorem stepChunk_eraseA (st : PState) (consumed : Nat) (chunk : List Char) :
    stepChunk st chunk =
      (stepChunkA st consumed chunk).map (fun r => (r.1, r.2.map eraseA)) := by
  unfold stepChunk stepChunkA
  dsimp only
  rw [processMatches_eraseA (st.leftover ++ chunk)
    (st.chunkEnd - (st.leftover.count '\n' : Int)) (consumed - st.leftover.length)]
  cases processMatchesA (st.leftover ++ chunk)
      (st.chunkEnd - (st.leftover.count '\n' : Int)) (consumed - st.leftover.length)
      (finditer (st.leftover ++ chunk)) with
  | error f => simp [Except.map]
  | ok outs =>
    simp only [Except.map]
    split <;> simp [Except.map]

theorem runChunks_eraseA :
    ∀ (cs : List (List Char)) (st : PState) (consumed : Nat),
      runChunks st cs = (runChunksA st consumed cs).map (List.map eraseA)
  | [], st, consumed => by simp [runChunks, runChunksA, Except.map]
  | c :: cs, st, consumed => by
    unfold runChunks runChunksA
    rw [stepChunk_eraseA st consumed c]
    cases hs : stepChunkA st consumed c with
    | error f => simp [Except.map, bind, Except.bind]
    | ok r =>
      simp only [Except.map, bind, Except.bind]
      rw [runChunks_eraseA cs r.1 (consumed + c.length)]
      cases runChunksA r.1 (consumed + c.length) cs <;> simp [Except.map]

theorem parse_games_eraseA (file : List Char) (b : Nat) :
    parse_games file b = (parse_gamesA file b).map (List.map eraseA) := by
  unfold parse_games parse_gamesA
  exact runChunks_eraseA _ _ _

theorem take_min_eq {α : Type} (l : List α) (k : Nat) :
    l.take (min k l.length) = l.take k := by
  rcases le_total k l.length with h | h
  · rw [min_eq_left h]
  · rw [min_eq_right h, List.take_length, List.take_of_length_le h]

theorem drop_min_eq {α : Type} (l : List α) (k : Nat) :
    l.drop (min k l.length) = l.drop k := by
  rcases le_total k l.length with h | h
  · rw [min_eq_left h]
  · rw [min_eq_right h, List.drop_length, List.drop_eq_nil_of_le h]

theorem processMatchesA_mem (data : List Char) (cl : Int) (w : Nat) :
    ∀ (ms : List (Nat × Nat)) (outs : List GameResultA),
      processMatchesA data cl w ms = .ok outs →
      ∀ l r p blk, GameResultA.rejectedA l r p blk ∈ outs →
        ∃ s e, (s, e) ∈ ms ∧ p = w + s ∧
          l = cl + ((data.take s).count '\n' : Int) ∧ blk = extractL data s e
  | [], outs, h => by
    simp only [processMatchesA] at h
    cases h
    intro l r p blk hmem
    simp at hmem
  | (s, e) :: rest, outs, h => by
    intro l r p blk hmem
    simp only [processMatchesA] at h
    split at h
    · rename_i g hp
      cases hrest : processMatchesA data cl w rest with
      | error f => rw [hrest] at h; simp [Except.map] at h
      | ok outs2 =>
        rw [hrest] at h
        simp [Except.map] at h
        subst h
        simp only [List.mem_cons] at hmem
        rcases hmem with hmem | hmem
        · cases hmem
        · obtain ⟨s2, e2, hin, rest2⟩ :=
            processMatchesA_mem data cl w rest outs2 hrest l r p blk hmem
          exact ⟨s2, e2, List.mem_cons_of_mem _ hin, rest2⟩
    · rename_i r2 hp
      cases hrest : processMatchesA data cl w rest with
      | error f => rw [hrest] at h; simp [Except.map] at h
      | ok outs2 =>
        rw [hrest] at h
        simp [Except.map] at h
        subst h
        simp only [List.mem_cons] at hmem
        rcases hmem with hmem | hmem
        · cases hmem
          exact ⟨s, e, List.mem_cons_self _ _, rfl, rfl, rfl⟩
        · obtain ⟨s2, e2, hin, rest2⟩ :=
            processMatchesA_mem data cl w rest outs2 hrest l r p blk hmem
          exact ⟨s2, e2, List.mem_cons_of_mem _ hin, rest2⟩
    · simp at h

theorem stepChunkA_invariant {P : List Char} {st : PState} (hs : SuffixState P st)
    {chunk : List Char} {st2 : PState} {outs : List GameResultA}
    (h : stepChunkA st P.length chunk = .ok (st2, outs)) :
    SuffixState (P ++ chunk) st2 ∧ ∀ item ∈ outs, AnnOk (P ++ chunk) item := by
  obtain ⟨hce, q, hq, hlo⟩ := hs
  have hlolen : st.leftover.length = P.length - q := by rw [hlo]; simp
  have hdata : st.leftover ++ chunk = (P ++ chunk).drop q := by
    rw [hlo, List.drop_append_of_le_length hq]
  have hw : P.length - st.leftover.length = q := by omega
  unfold stepChunkA at h
  dsimp only at h
  split at h
  · exact absurd h (by simp)
  · rename_i outs2 hpm
    split at h
    · exact absurd h (by simp)
    · rename_i e2 hsome
      cases h
      rw [hw] at hpm
      constructor
      · constructor
        · show st.chunkEnd + (chunk.count '\n' : Int) = 1 + ((P ++ chunk).count '\n' : Int)
          rw [hce, List.count_append]
          push_cast
          ring
        · refine ⟨min (q + e2) (P ++ chunk).length, min_le_right _ _, ?_⟩
          show (st.leftover ++ chunk).drop e2 = (P ++ chunk).drop (min (q + e2) (P ++ chunk).length)
          rw [drop_min_eq, hdata, List.drop_drop]
      · intro item hitem
        cases item with
        | okA g => trivial
        | rejectedA l r p blk =>
          obtain ⟨s, e, hin, hp, hl, hblk⟩ :=
            processMatchesA_mem _ _ _ _ _ hpm l r p blk hitem
          have hbnd := finditer_bounds hin
          have hdatalen : (st.leftover ++ chunk).length = (P.length - q) + chunk.length := by
            simp [hlolen]
          have hdropP : (P ++ chunk).drop p = (st.leftover ++ chunk).drop s := by
            rw [hp, hdata, List.drop_drop]
          have hblklen : blk.length = min (e - s) ((st.leftover ++ chunk).length - s) := by
            rw [hblk]
            unfold extractL
            rw [List.length_take, List.length_drop]
          refine ⟨?_, ?_, ?_⟩
          · -- line number
            have htake : (P ++ chunk).take p =
                P.take q ++ (st.leftover ++ chunk).take s := by
              rw [hp, List.take_add, List.take_append_of_le_length hq, hdata]
            have hPcount : P.count '\n' = (P.take q).count '\n' + (P.drop q).count '\n' := by
              conv_lhs => rw [← List.take_append_drop q P]
              rw [List.count_append]
            rw [hl, htake, List.count_append, hce, hlo]
            push_cast [hPcount]
            ring
          · -- block identity
            show blk = extractL (P ++ chunk) p (p + blk.length)
            unfold extractL
            rw [Nat.add_sub_cancel_left, hdropP, hblklen,
                ← List.length_drop s (st.leftover ++ chunk)]
            have : min (e - s) ((st.leftover ++ chunk).drop s).length =
                min (e - s) (((st.leftover ++ chunk).drop s).length) := rfl
            rw [List.length_drop] at this ⊢
            rw [← List.length_drop s (st.leftover ++ chunk), take_min_eq]
            exact hblk
          · -- bound
            have hlen2 : (P ++ chunk).length = P.length + chunk.length := by simp
            have hblklen2 : blk.length ≤ e - s := by rw [hblklen]; omega
            omega

theorem annOk_append {f g : List Char} {item : GameResultA}
    (h : AnnOk f item) : AnnOk (f ++ g) item := by
  cases item with
  | okA _ => trivial
  | rejectedA l r p blk =>
    obtain ⟨hl, hblk, hbnd⟩ := h
    have hple : p ≤ f.length := by omega
    refine ⟨?_, ?_, ?_⟩
    · rw [List.take_append_of_le_length hple]
      exact hl
    · unfold extractL at hblk ⊢
      rw [Nat.add_sub_cancel_left] at hblk ⊢
      rw [List.drop_append_of_le_length hple,
          List.take_append_of_le_length (by rw [List.length_drop]; omega)]
      exact hblk
    · simp only [List.length_append]
      omega

theorem runChunksA_invariant :
    ∀ (cs : List (List Char)) (P : List Char) (st : PState) (outs : List GameResultA),
      SuffixState P st → runChunksA st P.length cs = .ok outs →
      ∀ item ∈ outs, AnnOk (P ++ cs.flatten) item
  | [], P, st, outs, _, h => by
    simp only [runChunksA] at h
    cases h
    intro item hitem
    simp at hitem
  | c :: cs, P, st, outs, hs, h => by
    intro item hitem
    simp only [runChunksA, bind, Except.bind] at h
    cases hstep : stepChunkA st P.length c with
    | error f => rw [hstep] at h; simp at h
    | ok r =>
      rw [hstep] at h
      dsimp only at h
      cases hrun : runChunksA r.1 (P.length + c.length) cs with
      | error f => rw [hrun] at h; simp at h
      | ok outs2 =>
        rw [hrun] at h
        simp at h
        subst h
        obtain ⟨hs2, hann1⟩ := @stepChunkA_invariant P st hs c r.1 r.2
          (by rw [hstep])
        have hrun2 : runChunksA r.1 (P ++ c).length cs = .ok outs2 := by
          rw [List.length_append]
          exact hrun
        have hann2 := runChunksA_invariant cs (P ++ c) r.1 outs2 hs2 hrun2
        simp only [List.mem_append] at hitem
        rcases hitem with hitem | hitem
        · have := hann1 item hitem
          have h2 : AnnOk ((P ++ c) ++ cs.flatten) item := annOk_append this
          simpa using h2
        · have := hann2 item hitem
          simpa using this

theorem chunksOfAux_join (b : Nat) (hb : 0 < b) :
    ∀ (fuel : Nat) (l : List Char), l.length ≤ fuel → (chunksOfAux b fuel l).flatten = l
  | fuel, [] => by intro _; cases fuel <;> simp [chunksOfAux]
  | 0, c :: t => by intro h; simp at h
  | fuel + 1, c :: t => by
    intro h
    simp only [chunksOfAux, List.flatten_cons]
    rw [chunksOfAux_join b hb fuel ((c :: t).drop b)
      (by simp only [List.length_drop, List.length_cons] at h ⊢; omega)]
    exact List.take_append_drop b (c :: t)

theorem chunksOf_join {b : Nat} (hb : 0 < b) (l : List Char) :
    (chunksOf b l).flatten = l := by
  unfold chunksOf
  rw [if_neg (by omega)]
  exact chunksOfAux_join b hb l.length l (le_refl _)

/-- C4: whenever a parse completes, every rejection report carries the true
1-based source line of its block's first header line: the annotated run
records each rejected block and its absolute source position `p`, the block
really does sit at `p` in the original file, and the reported line equals
`1 + (newlines before p)` — the code's window-start-line plus
newlines-in-window-before-match computation. The line is therefore a
function of the block's position in the file alone, independent of the
configured chunk size. -/
theorem c4_line_accuracy (file : List Char) (buffer_size : Nat)
    (outA : List GameResultA) (hb : 0 < buffer_size)
    (h : parse_gamesA file buffer_size = .ok outA) :
    parse_games file buffer_size = .ok (outA.map eraseA) ∧
    ∀ l r p blk, GameResultA.rejectedA l r p blk ∈ outA →
      l = 1 + ((file.take p).count '\n' : Int) ∧
      blk = extractL file p (p + blk.length) := by
  constructor
  · rw [parse_games_eraseA file buffer_size, h]
    rfl
  · intro l r p blk hmem
    have hsuff : SuffixState [] initState :=
      ⟨by simp [initState], 0, by simp, by simp [initState]⟩
    have hrun0 : runChunksA initState (([] : List Char)).length (chunksOf buffer_size file) = .ok outA := by
      simpa [parse_gamesA] using h
    have hrun := runChunksA_invariant (chunksOf buffer_size file) [] initState outA hsuff hrun0
    have := hrun _ hmem
    rw [List.nil_append, chunksOf_join hb] at this
    exact ⟨this.1, this.2.1⟩

/-! ## Claim theorems (first group) -/

set_option maxRecDepth 40000 in
/-- C1 (code bug): the claim says a well-formed corpus parses to the same N
records for every chunk size from 1 byte up to the file size. It does not:
on the P6 sample, `buffer_size = 1` makes the very first window (one byte,
no match) evaluate `if match:` with the `match` variable never assigned, so
the parse dies with `UnboundLocalError`, while `buffer_size = 1024` yields
the one record. -/
theorem c1_small_buffer_crashes :
    parse_games p6sample 1 = .error Fatal.unboundLocal ∧
    parse_games p6sample 1024 = .ok [GameResult.ok p6game] := ⟨rfl, rfl⟩

set_option maxRecDepth 40000 in
/-- C3 (code bug): a corpus of non-matching text longer than
`2 × buffer_size` with no terminal token ("xxxxx" with `buffer_size = 2`)
is claimed to raise the fatal "increase buffer size" condition. Instead the
first no-match window raises `UnboundLocalError` at `if match:` — the
overflow branch sits in the `else` of that test and is unreachable, because
`match` is either unbound or a truthy `re.Match`. -/
theorem c3_no_match_run_raises_unbound_local :
    parse_games (("xxxxx").data) 2 = .error Fatal.unboundLocal ∧
    Fatal.unboundLocal ≠ Fatal.increaseBuffer := ⟨rfl, by decide⟩

set_option maxRecDepth 4000 in
/-- C5 counterexample: after a first chunk containing one full record
(match end 12), a second window `"\n\n[Event \"x\n"` containing zero matches
retains leftover `[]` — `data[12:]` for the stale match end — not the entire
window as the claim states. -/
theorem c5_zero_match_stale_counterexample :
    stepChunk initState tinyRecord =
      .ok (tinyState, [GameResult.rejected 1 (Reason.attrNotFound ("event"))]) ∧
    finditer (tinyState.leftover ++ tinyTail) = [] ∧
    (stepChunk tinyState tinyTail).map (fun r => r.1.leftover) = .ok [] ∧
    ([] : List Char) ≠ tinyState.leftover ++ tinyTail := ⟨rfl, rfl, rfl, by decide⟩

/-- C5 as amended: after a chunk iteration that completes, the retained
leftover is the window suffix after the end of the last match of that window
when the window has matches; when it has zero matches, the parse instead
crashes if no earlier window ever matched, and otherwise retains
`data[e:]`, where `e` is the stale end offset of the last match of an
earlier window — never the entire current window. -/
theorem c5_leftover_characterization (st : PState) (chunk : List Char)
    (st2 : PState) (outs : List GameResult)
    (h : stepChunk st chunk = .ok (st2, outs)) :
    (∃ ms me, finditer (st.leftover ++ chunk) = ms ++ [me] ∧
      st2.leftover = (st.leftover ++ chunk).drop me.2) ∨
    (finditer (st.leftover ++ chunk) = [] ∧
      ∃ e, st.lastEnd = some e ∧
        st2.leftover = (st.leftover ++ chunk).drop e) := by
  unfold stepChunk at h
  dsimp only at h
  split at h
  · exact absurd h (by simp)
  · rename_i outs2 hpm
    split at h
    · exact absurd h (by simp)
    · rename_i e hsome
      split at hsome
      · rename_i me hlast
        obtain ⟨t, ht⟩ := getLast?_exists_append hlast
        injection hsome with h2
        subst h2
        left
        refine ⟨t, me, ht, ?_⟩
        cases h
        rfl
      · rename_i hnone
        right
        have hnil : finditer (st.leftover ++ chunk) = [] :=
          List.getLast?_eq_none_iff.mp hnone
        refine ⟨hnil, e, hsome, ?_⟩
        cases h
        rfl

set_option maxRecDepth 4000 in
/-- Witness for the amended C5 at a concrete chunk with one match. -/
theorem c5_leftover_characterization_witness :
    (∃ ms me, finditer (initState.leftover ++ tinyRecord) = ms ++ [me] ∧
      tinyState.leftover = (initState.leftover ++ tinyRecord).drop me.2) ∨
    (finditer (initState.leftover ++ tinyRecord) = [] ∧
      ∃ e, initState.lastEnd = some e ∧
        tinyState.leftover = (initState.leftover ++ tinyRecord).drop e) :=
  c5_leftover_characterization initState tinyRecord tinyState
    [GameResult.rejected 1 (Reason.attrNotFound ("event"))] rfl

/-- C6: record construction is all-or-nothing — for every input field map,
`ChessGame.__init__` either returns a record whose 14 schema fields are all
present and successfully coerced from the map, or raises a
`PgnParserException`; no partially populated record escapes. -/
theorem c6_all_or_nothing (d : FieldMap) :
    (∃ g, chessGameInit d = .ok g ∧ AllCoerced d g) ∨
    (∃ r, chessGameInit d = .error r) := by
  cases h : chessGameInit d with
  | error r => exact .inr ⟨r, rfl⟩
  | ok g => exact .inl ⟨g, rfl, chessGameInit_ok_getters h⟩

set_option maxRecDepth 40000 in
/-- C7: type coercion — `[WhiteElo "abc"]` on an otherwise valid block is
rejected with a cast failure citing `whiteelo`; `[UTCDate "2013-01-01"]`
(wrong delimiter) is rejected citing `utcdate`; `[UTCDate "2013.01.01"]`
builds a record whose `utcdate` is January 1, 2013. -/
theorem c7_type_coercion :
    pgn_to_chessgame blockEloAbc =
      .error (.pgnExc (.castFailure (.vstr ("abc")) ("whiteelo"))) ∧
    pgn_to_chessgame blockDateDash =
      .error (.pgnExc (.castFailure (.vstr ("2013-01-01")) ("utcdate"))) ∧
    pgn_to_chessgame p6block = .ok p6game ∧
    p6game.utcdate = { year := 2013, month := 1, day := 1 } := ⟨rfl, rfl, rfl, rfl⟩

set_option maxRecDepth 40000 in
/-- C8: on exactly the §8 P6 sample input (with the source's default
`buffer_size = 1024`), `parse_games` yields exactly one record, with
`white = "alice"`, `result = "1-0"`, `utcdate` = January 1 2013,
`whiteelo = 1500` and the movetext verbatim in `moves`. -/
theorem c8_end_to_end :
    parse_games p6sample 1024 = .ok [GameResult.ok p6game] ∧
    p6game.white = "alice" ∧ p6game.result = "1-0" ∧
    p6game.utcdate = { year := 2013, month := 1, day := 1 } ∧
    p6game.whiteelo = 1500 ∧
    p6game.moves = "1. e4 d5 2. exd5 Qxd5 1-0" := ⟨rfl, rfl, rfl, rfl, rfl, rfl⟩

/-- C9 counterexample: on a block with no blank-line delimiter at all
(`"abc"`), `pgn_to_chessgame` raises `IndexError` at `split_pgn[1]` — not
the wrong-part-count `PgnParserException` the claim states (the indexing
happens before the part-count check, and `IndexError` is not caught by the
extractor's per-match loop). -/
theorem c9_no_delimiter_escapes :
    pgn_to_chessgame (("abc").data) = .error PyError.indexError ∧
    pgn_to_chessgame (("abc").data) ≠ .error (.pgnExc Reason.wrongPartCount) := by
  have h1 : pgn_to_chessgame (("abc").data) = .error PyError.indexError := rfl
  refine ⟨h1, ?_⟩
  rw [h1]
  simp

/-- C9 as amended: when splitting the block on the blank-line delimiter does
not yield exactly two parts, decoding fails — with the wrong-part-count
`PgnParserException` when there are more than two parts, but with an
uncaught `IndexError` when there are fewer than two (no delimiter). -/
theorem c9_part_count (s : List Char)
    (h : (splitOnSep pgnDelim s).length ≠ 2) :
    pgn_to_chessgame s =
      .error (if (splitOnSep pgnDelim s).length < 2 then PyError.indexError
              else PyError.pgnExc Reason.wrongPartCount) := by
  unfold pgn_to_chessgame
  rcases hsp : splitOnSep pgnDelim s with _ | ⟨a, _ | ⟨b, rest⟩⟩
  · simp
  · simp
  · rw [hsp] at h
    have hrest : rest ≠ [] := by
      intro hr; subst hr; simp at h
    have hge : ¬ (rest.length + 1 + 1 < 2) := by omega
    simp [hrest, hge]

/-- Witness for the amended C9 at the delimiter-free block `"abc"`. -/
theorem c9_part_count_witness :
    (splitOnSep pgnDelim (("abc").data)).length ≠ 2 ∧
    pgn_to_chessgame (("abc").data) =
      .error (if (splitOnSep pgnDelim (("abc").data)).length < 2 then PyError.indexError
              else PyError.pgnExc Reason.wrongPartCount) :=
  ⟨by decide, c9_part_count _ (by decide)⟩

/-- C10: unknown fields are silently discarded — `ChessGame.__init__` reads
only the 14 schema attribute names from the dict, so any two dicts agreeing
on those names build identical results, and extra keys neither fail nor
leave a trace on the record. -/
theorem c10_extra_keys_ignored (dExt d : FieldMap)
    (h : ∀ a ∈ schemaNames, dExt a = d a) :
    chessGameInit dExt = chessGameInit d := by
  unfold chessGameInit
  rw [getAttrStr_congr (h ("event") (by simp [schemaNames])),
      getAttrStr_congr (h ("site") (by simp [schemaNames])),
      getAttrStr_congr (h ("white") (by simp [schemaNames])),
      getAttrStr_congr (h ("black") (by simp [schemaNames])),
      getAttrStr_congr (h ("result") (by simp [schemaNames])),
      getAttrStr_congr (h ("eco") (by simp [schemaNames])),
      getAttrStr_congr (h ("opening") (by simp [schemaNames])),
      getAttrStr_congr (h ("timecontrol") (by simp [schemaNames])),
      getAttrStr_congr (h ("termination") (by simp [schemaNames])),
      getAttrStr_congr (h ("moves") (by simp [schemaNames])),
      getAttrDate_congr (h ("utcdate") (by simp [schemaNames])),
      getAttrTime_congr (h ("utctime") (by simp [schemaNames])),
      getAttrInt_congr (h ("whiteelo") (by simp [schemaNames])),
      getAttrInt_congr (h ("blackelo") (by simp [schemaNames]))]

/-- Witness for C10: the extra key changes nothing. -/
theorem c10_extra_keys_ignored_witness :
    (∀ a ∈ schemaNames, c10ext a = c10base a) ∧
    chessGameInit c10ext = chessGameInit c10base :=
  ⟨by decide, c10_extra_keys_ignored _ _ (by decide)⟩

/-- Witness for C4 at a concrete two-record corpus processed in one chunk:
the second rejection is reported at line 5, which is one plus the newline
count before its source position 14, and the recorded block is the slice of
the file at that position. -/
theorem c4_line_accuracy_witness :
    (5 : Int) = 1 + ((c4corpus.take 14).count '\n' : Int) ∧
    c4blockC = extractL c4corpus 14 (14 + c4blockC.length) :=
  (c4_line_accuracy c4corpus 28
      [GameResultA.rejectedA 1 (Reason.attrNotFound ("event")) 0 c4blockA,
       GameResultA.rejectedA 5 (Reason.attrNotFound ("event")) 14 c4blockC]
      (by decide) rfl).2
    5 (Reason.attrNotFound ("event")) 14 c4blockC (by decide)

/-! ## Rendered-corpus lemmas and the isolation claim (second group) -/

theorem headerAtom_decomp (k : List Char → Option Nat) :
    headerAtom k =
      charM (fun c => c == '[') (plusClass (fun c => !(c == ']')) (atomB k)) := rfl

theorem isPrefixOf_append_nl {tok : List Char} (htok : '\n' ∉ tok) :
    ∀ (ys rest : List Char),
      tok.isPrefixOf (ys ++ '\n' :: rest) = tok.isPrefixOf ys := by
  induction tok with
  | nil => intro ys rest; simp [List.isPrefixOf]
  | cons c t ih =>
    intro ys rest
    have hc : c ≠ '\n' := fun h => htok (h ▸ List.mem_cons_self c t)
    have ht : '\n' ∉ t := fun h => htok (List.mem_cons_of_mem c h)
    cases ys with
    | nil =>
      simp only [List.nil_append, List.isPrefixOf]
      rw [show (c == '\n') = false from by simp [hc]]
      simp
    | cons y ys2 =>
      simp only [List.cons_append, List.isPrefixOf, List.append_eq]
      rw [ih ht ys2 rest]

theorem tokAt_append_nl (ys rest : List Char) :
    tokAt (ys ++ '\n' :: rest) = tokAt ys := by
  unfold tokAt
  rw [isPrefixOf_append_nl (by decide), isPrefixOf_append_nl (by decide),
      isPrefixOf_append_nl (by decide)]

theorem dotStarTok_append {xs : List Char} (hx : '\n' ∉ xs) (rest : List Char) :
    dotStarTok (xs ++ '\n' :: rest) = lastTokEnd xs := by
  induction xs with
  | nil =>
    show dotStarTok ('\n' :: rest) = lastTokEnd []
    simp only [dotStarTok, if_pos rfl, lastTokEnd]
    exact tokAt_append_nl [] rest
  | cons c t ih =>
    have hc : c ≠ '\n' := fun h => hx (h ▸ List.mem_cons_self c t)
    have ht : '\n' ∉ t := fun h => hx (List.mem_cons_of_mem c h)
    show dotStarTok (c :: (t ++ '\n' :: rest)) = lastTokEnd (c :: t)
    simp only [dotStarTok, lastTokEnd, if_neg hc]
    rw [ih ht]
    cases lastTokEnd t with
    | some n => rfl
    | none =>
      simp only []
      exact tokAt_append_nl (c :: t) rest

theorem starClass_quote_stop (E2 : List Char → Option Nat) :
    ∀ (w z : List Char), (∀ c ∈ w, c ≠ '"') →
      starClass (fun c => !(c == '"')) (charM (fun c => c == '"') E2) (w ++ '"' :: z)
        = (charM (fun c => c == '"') E2 ('"' :: z)).map (· + w.length)
  | [], z, hw => by
    show starClass _ _ ('"' :: z) = _
    simp only [starClass]
    rw [if_neg (by simp)]
    cases charM (fun c => c == '"') E2 ('"' :: z) <;> simp
  | c :: w', z, hw => by
    have hc : c ≠ '"' := hw c (List.mem_cons_self c w')
    have hw' : ∀ x ∈ w', x ≠ '"' := fun x hx => hw x (List.mem_cons_of_mem c hx)
    show starClass _ _ (c :: (w' ++ '"' :: z)) = _
    simp only [starClass]
    rw [if_pos (by simp [hc])]
    rw [starClass_quote_stop E2 w' z hw']
    cases hE : charM (fun c => c == '"') E2 ('"' :: z) with
    | none => simp [charM, hc]
    | some m =>
      simp only [Option.map_some, List.length_cons]
      congr 1

theorem starClass_value_fail (k : List Char → Option Nat) :
    ∀ (v z : List Char), (∀ c ∈ v, c ≠ '"' ∧ c ≠ ']') →
      (∀ c, v.getLast? = some c → isPySpace c = false) →
      starClass (fun c => !(c == ']')) (atomB k) (v ++ '"' :: ']' :: z) = none
  | [], z, hv, hlast => by
    show starClass _ _ ('"' :: ']' :: z) = none
    rw [starClass]
    rw [if_pos (by decide)]
    rw [starClass]
    rw [if_neg (by decide)]
    simp [atomB, charM,
      show isPySpace ']' = false from by decide,
      show isPySpace '"' = false from by decide]
  | c :: v', z, hv, hlast => by
    have hc := hv c (List.mem_cons_self c v')
    have hv2 : ∀ x ∈ v', x ≠ '"' ∧ x ≠ ']' := fun x hx => hv x (List.mem_cons_of_mem c hx)
    show starClass _ _ (c :: (v' ++ '"' :: ']' :: z)) = none
    rw [starClass]
    rw [if_pos (by simp [hc.2])]
    cases v' with
    | nil =>
      have hcs : isPySpace c = false := hlast c (by simp)
      rw [starClass_value_fail k [] z (by simp) (by simp)]
      simp [atomB, charM, hcs]
    | cons d v2 =>
      have hd := hv2 d (List.mem_cons_self d v2)
      have hlast2 : ∀ x, (d :: v2).getLast? = some x → isPySpace x = false := by
        intro x hx
        exact hlast x (by rw [List.getLast?_cons_cons]; exact hx)
      rw [starClass_value_fail k (d :: v2) z hv2 hlast2]
      by_cases hcs : isPySpace c
      · simp [atomB, charM, atomC, hcs, hd.1]
      · simp [atomB, charM, hcs]

theorem starClass_quoteopen_fail (k : List Char → Option Nat) (v z : List Char)
    (hv : ∀ c ∈ v, c ≠ '"' ∧ c ≠ ']')
    (hlast : ∀ c, v.getLast? = some c → isPySpace c = false) :
    starClass (fun c => !(c == ']')) (atomB k) ('"' :: (v ++ '"' :: ']' :: z)) = none := by
  rw [starClass]
  rw [if_pos (by decide)]
  rw [starClass_value_fail k v z hv hlast]
  simp [atomB, charM, show isPySpace '"' = false from by decide]

theorem atomD_value (k : List Char → Option Nat) (v z : List Char)
    (hvne : v ≠ []) (hv : ∀ c ∈ v, c ≠ '"' ∧ c ≠ ']') :
    atomD k (v ++ '"' :: ']' :: z) = (optNl k z).map (· + (v.length + 2)) := by
  cases v with
  | nil => exact absurd rfl hvne
  | cons vc v2 =>
    show atomD k (vc :: (v2 ++ '"' :: ']' :: z)) = _
    unfold atomD plusClass
    dsimp only
    rw [if_pos (by simp [(hv vc (List.mem_cons_self vc v2)).1])]
    have hq := starClass_quote_stop (charM (fun c => c == ']') (optNl k)) v2 (']' :: z)
      (fun x hx => (hv x (List.mem_cons_of_mem vc hx)).1)
    rw [show atomE k =
      charM (fun c => c == '"') (charM (fun c => c == ']') (optNl k)) from rfl]
    rw [hq]
    cases ho : optNl k z with
    | none => simp [charM, ho]
    | some n =>
      simp [charM, ho]
      omega

theorem starClass_name (k : List Char → Option Nat) :
    ∀ (m v z : List Char),
      (∀ c ∈ m, isPySpace c = false ∧ c ≠ ']' ∧ c ≠ '"') →
      v ≠ [] → (∀ c ∈ v, c ≠ '"' ∧ c ≠ ']') →
      (∀ c, v.getLast? = some c → isPySpace c = false) →
      starClass (fun c => !(c == ']')) (atomB k)
          (m ++ ' ' :: '"' :: (v ++ '"' :: ']' :: z))
        = (optNl k z).map (· + (m.length + v.length + 4))
  | [], v, z, hm, hvne, hv, hlast => by
    show starClass _ _ (' ' :: '"' :: (v ++ '"' :: ']' :: z)) = _
    rw [starClass]
    rw [if_pos (by decide)]
    rw [starClass_quoteopen_fail k v z hv hlast]
    have hD := atomD_value k v z hvne hv
    cases ho : optNl k z with
    | none =>
      rw [ho] at hD
      simp [atomB, atomC, charM, show isPySpace ' ' = true from by decide, hD]
    | some n =>
      rw [ho] at hD
      simp [atomB, atomC, charM, show isPySpace ' ' = true from by decide, hD]
      omega
  | c :: m', v, z, hm, hvne, hv, hlast => by
    have hc := hm c (List.mem_cons_self c m')
    have hm' : ∀ x ∈ m', isPySpace x = false ∧ x ≠ ']' ∧ x ≠ '"' :=
      fun x hx => hm x (List.mem_cons_of_mem c hx)
    show starClass _ _ (c :: (m' ++ ' ' :: '"' :: (v ++ '"' :: ']' :: z))) = _
    rw [starClass]
    rw [if_pos (by simp [hc.2.1])]
    rw [starClass_name k m' v z hm' hvne hv hlast]
    cases ho : optNl k z with
    | none => simp [atomB, charM, hc.1]
    | some n =>
      simp
      omega

theorem charM_cons (p : Char → Bool) (k : List Char → Option Nat) (c : Char)
    (rest : List Char) :
    charM p k (c :: rest) = if p c then (k rest).map (· + 1) else none := rfl

theorem plusClass_cons (p : Char → Bool) (k : List Char → Option Nat) (c : Char)
    (rest : List Char) :
    plusClass p k (c :: rest) =
      if p c then (starClass p k rest).map (· + 1) else none := rfl

theorem headerAtom_line (k : List Char → Option Nat) (h : HeaderData) (z : List Char)
    (hh : ValidHeader h) :
    headerAtom k (headerLineOf h ++ z)
      = (optNl k z).map (· + (headerLineOf h).length) := by
  obtain ⟨hn, hnc, hvne, hvc, hlast⟩ := hh
  have hvc2 : ∀ c ∈ h.value, c ≠ '"' ∧ c ≠ ']' := fun c hc =>
    ⟨(hvc c hc).1, (hvc c hc).2.1⟩
  have hshape : headerLineOf h ++ z =
      '[' :: (h.name ++ ' ' :: '"' :: (h.value ++ '"' :: ']' :: z)) := by
    simp [headerLineOf]
  have hlen : (headerLineOf h).length = h.name.length + h.value.length + 5 := by
    simp [headerLineOf]
    omega
  rw [hshape, headerAtom_decomp]
  cases hname : h.name with
  | nil => exact absurd hname hn
  | cons n0 n' =>
    have hn0 := hnc n0 (hname ▸ List.mem_cons_self n0 n')
    have hn' : ∀ x ∈ n', isPySpace x = false ∧ x ≠ ']' ∧ x ≠ '"' :=
      fun x hx => hnc x (hname ▸ List.mem_cons_of_mem n0 hx)
    show charM (fun c => c == '[')
        (plusClass (fun c => !(c == ']')) (atomB k))
        ('[' :: (n0 :: n' ++ ' ' :: '"' :: (h.value ++ '"' :: ']' :: z))) = _
    rw [charM_cons]
    rw [if_pos (by decide)]
    simp only [List.cons_append]
    rw [plusClass_cons]
    rw [if_pos (by simp [hn0.2.1])]
    rw [show (n' ++ ' ' :: '"' :: (h.value ++ '"' :: ']' :: z)) =
      (n' ++ ' ' :: '"' :: (h.value ++ '"' :: ']' :: z)) from rfl]
    rw [starClass_name k n' h.value z hn' hvne hvc2 hlast]
    rw [hlen, hname]
    cases ho : optNl k z with
    | none => simp
    | some m =>
      simp
      omega

theorem headerAtom_nonbracket (k : List Char → Option Nat) {c : Char} (hc : c ≠ '[')
    (s : List Char) : headerAtom k (c :: s) = none := by
  rw [headerAtom_decomp, charM_cons, if_neg (by simp [hc])]

theorem headersStar_nonbracket (k : List Char → Option Nat) (fuel : Nat)
    (s : List Char) (hs : s.head? ≠ some '[') :
    headersStar k fuel s = k s := by
  cases fuel with
  | zero => rfl
  | succ f =>
    have hna : headerAtom (headersStar k f) s = none := by
      cases s with
      | nil => rfl
      | cons c rest =>
        have hc : c ≠ '[' := by simpa using hs
        exact headerAtom_nonbracket _ hc rest
    simp only [headersStar]
    rw [hna]

theorem pgnBody_2nl (s : List Char) :
    pgnBody ('\n' :: '\n' :: s) = (dotStarTok s).map (· + 2) := by
  unfold pgnBody
  rw [charM_cons, if_pos (by decide), charM_cons, if_pos (by decide)]
  cases dotStarTok s <;> simp

theorem pgnBody_nonnl {c : Char} (hc : c ≠ '\n') (s : List Char) :
    pgnBody (c :: s) = none := by
  unfold pgnBody
  rw [charM_cons, if_neg (by simp [hc])]

theorem pgnBody_nl_nonnl {c : Char} (hc : c ≠ '\n') (s : List Char) :
    pgnBody ('\n' :: c :: s) = none := by
  unfold pgnBody
  rw [charM_cons, if_pos (by decide), charM_cons, if_neg (by simp [hc])]
  simp

theorem optNl_nl (k : List Char → Option Nat) (rest : List Char) :
    optNl k ('\n' :: rest) =
      match (k rest).map (· + 1) with
      | some n => some n
      | none => k ('\n' :: rest) := rfl

theorem headersStar_chain :
    ∀ (tl : List HeaderData) (fuel : Nat) (hd : HeaderData) (moves rest : List Char),
      ValidHeader hd → (∀ x ∈ tl, ValidHeader x) →
      moves ≠ [] → '\n' ∉ moves → tl.length ≤ fuel →
      headerAtom (headersStar pgnBody fuel)
          (joinLines ((hd :: tl).map headerLineOf) ++ '\n' :: (moves ++ '\n' :: rest))
        = (lastTokEnd moves).map
            (· + ((joinLines ((hd :: tl).map headerLineOf)).length + 1))
  | [], fuel, hd, moves, rest, hhd, htl, hmne, hmnl, hfuel => by
    have hmh : ∀ (m0 : Char) (m' : List Char), moves = m0 :: m' → m0 ≠ '\n' := by
      intro m0 m' hmm0 hc
      exact hmnl (hmm0 ▸ hc ▸ List.mem_cons_self m0 m')
    have hshape :
        joinLines ([hd].map headerLineOf) ++ '\n' :: (moves ++ '\n' :: rest) =
          headerLineOf hd ++ ('\n' :: '\n' :: (moves ++ '\n' :: rest)) := by
      simp [joinLines]
    rw [hshape, headerAtom_line _ hd _ hhd]
    have hK : headersStar pgnBody fuel ('\n' :: (moves ++ '\n' :: rest)) = none := by
      rw [headersStar_nonbracket _ _ _ (by simp)]
      cases moves with
      | nil => exact absurd rfl hmne
      | cons m0 m' =>
        show pgnBody ('\n' :: (m0 :: (m' ++ '\n' :: rest))) = none
        exact pgnBody_nl_nonnl (hmh m0 m' rfl) _
    have hK2 : headersStar pgnBody fuel ('\n' :: '\n' :: (moves ++ '\n' :: rest)) =
        (lastTokEnd moves).map (· + 2) := by
      rw [headersStar_nonbracket _ _ _ (by simp)]
      rw [pgnBody_2nl, dotStarTok_append hmnl]
    rw [optNl_nl]
    rw [hK]
    simp only [Option.map_none']
    rw [hK2]
    have hlen : (joinLines ([hd].map headerLineOf)).length =
        (headerLineOf hd).length + 1 := by
      simp [joinLines]
    rw [hlen]
    cases lastTokEnd moves with
    | none => simp
    | some n =>
      simp
      omega
  | h2 :: tl', fuel, hd, moves, rest, hhd, htl, hmne, hmnl, hfuel => by
    cases fuel with
    | zero => simp at hfuel
    | succ f =>
      have hh2 : ValidHeader h2 := htl h2 (List.mem_cons_self h2 tl')
      have htl' : ∀ x ∈ tl', ValidHeader x :=
        fun x hx => htl x (List.mem_cons_of_mem h2 hx)
      have hf : tl'.length ≤ f := by
        simp only [List.length_cons] at hfuel
        omega
      have hshape :
          joinLines ((hd :: h2 :: tl').map headerLineOf) ++ '\n' :: (moves ++ '\n' :: rest) =
            headerLineOf hd ++
              ('\n' :: (joinLines ((h2 :: tl').map headerLineOf) ++
                '\n' :: (moves ++ '\n' :: rest))) := by
        simp [joinLines]
      rw [hshape, headerAtom_line _ hd _ hhd]
      have hIH := headersStar_chain tl' f h2 moves rest hh2 htl' hmne hmnl hf
      have hJhead : ∃ t, joinLines ((h2 :: tl').map headerLineOf) ++ '\n' :: (moves ++ '\n' :: rest) = '[' :: t := by
        refine ⟨(h2.name ++ ' ' :: '"' :: (h2.value ++ [ '"', ']' ])) ++ [ '\n' ] ++
          (joinLines (tl'.map headerLineOf) ++ '\n' :: (moves ++ '\n' :: rest)), ?_⟩
        simp [joinLines, headerLineOf]
      obtain ⟨t, ht⟩ := hJhead
      have hKin : headersStar pgnBody (f + 1)
          (joinLines ((h2 :: tl').map headerLineOf) ++ '\n' :: (moves ++ '\n' :: rest)) =
          (lastTokEnd moves).map
            (· + ((joinLines ((h2 :: tl').map headerLineOf)).length + 1)) := by
        simp only [headersStar]
        rw [hIH]
        cases hlt : lastTokEnd moves with
        | some n => rfl
        | none =>
          simp only [Option.map_none']
          rw [ht]
          exact @pgnBody_nonnl '[' (by decide) t
      rw [optNl_nl]
      rw [hKin]
      cases hlt : lastTokEnd moves with
      | none =>
        simp only [Option.map_none']
        rw [headersStar_nonbracket _ _ _ (by simp)]
        rw [ht]
        exact @pgnBody_nl_nonnl '[' (by decide) t
      | some n =>
        simp only [Option.map_some']
        have hlen : (joinLines ((hd :: h2 :: tl').map headerLineOf)).length =
            (headerLineOf hd).length + 1 +
              (joinLines ((h2 :: tl').map headerLineOf)).length := by
          simp [joinLines]
          omega
        rw [hlen]
        simp
        omega

theorem joinLines_length_ge (ls : List (List Char)) :
    ls.length ≤ (joinLines ls).length := by
  induction ls with
  | nil => simp [joinLines]
  | cons l t ih =>
    simp only [joinLines, List.map_cons, List.flatten_cons, List.length_append,
      List.length_cons] at ih ⊢
    omega

theorem blockOf_shape (r : RecordData) (rest : List Char) :
    blockOf r ++ '\n' :: rest =
      joinLines (r.headers.map headerLineOf) ++ '\n' :: (r.moves ++ '\n' :: rest) := by
  simp [blockOf]

theorem blockOf_length (r : RecordData) :
    (blockOf r).length =
      (joinLines (r.headers.map headerLineOf)).length + 1 + r.moves.length := by
  simp [blockOf]
  omega

theorem pgn_match_at_block (r : RecordData) (hr : ShapeValid r) (rest : List Char) :
    pgn_match_at (blockOf r ++ '\n' :: rest) = some (blockOf r).length := by
  obtain ⟨hne, hv, hmne, hmnl, hlte⟩ := hr
  cases hh : r.headers with
  | nil => exact absurd hh hne
  | cons hd tl =>
    have hhd : ValidHeader hd := hv hd (hh ▸ List.mem_cons_self hd tl)
    have htl : ∀ x ∈ tl, ValidHeader x := fun x hx => hv x (hh ▸ List.mem_cons_of_mem hd hx)
    have hsh : blockOf r ++ '\n' :: rest =
        joinLines ((hd :: tl).map headerLineOf) ++ '\n' :: (r.moves ++ '\n' :: rest) := by
      rw [blockOf_shape, hh]
    have hfuel : tl.length ≤
        (joinLines ((hd :: tl).map headerLineOf) ++ '\n' :: (r.moves ++ '\n' :: rest)).length := by
      have h1 := joinLines_length_ge ((hd :: tl).map headerLineOf)
      simp only [List.length_map, List.length_cons, List.length_append] at h1 ⊢
      omega
    unfold pgn_match_at
    rw [hsh]
    rw [headersStar_chain tl _ hd r.moves rest hhd htl hmne hmnl hfuel]
    rw [hlte]
    simp only [Option.map_some']
    have h2 := blockOf_length r
    rw [hh] at h2
    rw [h2]
    congr 1
    omega

theorem pgn_match_at_nonbracket {c : Char} (hc : c ≠ '[') (s : List Char) :
    pgn_match_at (c :: s) = none := by
  unfold pgn_match_at
  exact headerAtom_nonbracket _ hc s

theorem finditerAux_succ (f : Nat) (s : List Char) (pos : Nat) :
    finditerAux (f + 1) s pos =
      match pgn_match_at s with
      | some n =>
        (pos, pos + n) ::
          (if n = 0 then finditerAux f (s.drop 1) (pos + 1)
           else finditerAux f (s.drop n) (pos + n))
      | none =>
        match s with
        | [] => []
        | _ :: rest => finditerAux f rest (pos + 1) := rfl

theorem finditerAux_skip {c : Char} (hc : c ≠ '[') (f : Nat) (s : List Char) (pos : Nat) :
    finditerAux (f + 1) (c :: s) pos = finditerAux f s (pos + 1) := by
  rw [finditerAux_succ]
  rw [pgn_match_at_nonbracket hc]

theorem finditerAux_found (f : Nat) {s : List Char} {n : Nat}
    (h : pgn_match_at s = some n) (hn : n ≠ 0) (pos : Nat) :
    finditerAux (f + 1) s pos = (pos, pos + n) :: finditerAux f (s.drop n) (pos + n) := by
  rw [finditerAux_succ, h]
  simp [hn]

theorem corpusOf_cons (r : RecordData) (rs : List RecordData) :
    corpusOf (r :: rs) = blockOf r ++ '\n' :: '\n' :: corpusOf rs := by
  simp [corpusOf, renderRecord]

theorem blockOf_pos (r : RecordData) : 0 < (blockOf r).length := by
  rw [blockOf_length]
  omega

theorem finditerAux_corpus :
    ∀ (rs : List RecordData) (fuel pos : Nat), (∀ r ∈ rs, ShapeValid r) →
      (corpusOf rs).length + 1 ≤ fuel →
      finditerAux fuel (corpusOf rs) pos = spansFrom pos rs
  | [], fuel, pos, _, hf => by
    have hc : corpusOf ([] : List RecordData) = [] := by simp [corpusOf]
    rw [hc] at hf ⊢
    cases fuel with
    | zero => omega
    | succ f =>
      rw [finditerAux_succ]
      rw [show pgn_match_at ([] : List Char) = none from rfl]
      rfl
  | r :: rs', fuel, pos, hv, hf => by
    have hr : ShapeValid r := hv r (List.mem_cons_self r rs')
    have hv2 : ∀ x ∈ rs', ShapeValid x := fun x hx => hv x (List.mem_cons_of_mem r hx)
    have hcc := corpusOf_cons r rs'
    have hlen : (corpusOf (r :: rs')).length =
        (blockOf r).length + 2 + (corpusOf rs').length := by
      rw [hcc]
      simp
      omega
    have hbl := blockOf_pos r
    obtain ⟨f3, rfl⟩ : ∃ f3, fuel = f3 + 3 := ⟨fuel - 3, by omega⟩
    rw [hcc]
    rw [show f3 + 3 = f3 + 2 + 1 from rfl]
    rw [show blockOf r ++ '\n' :: '\n' :: corpusOf rs' =
      blockOf r ++ '\n' :: ('\n' :: corpusOf rs') from rfl]
    rw [finditerAux_found (f3 + 2) (pgn_match_at_block r hr ('\n' :: corpusOf rs')) (by omega) pos]
    have hdrop : (blockOf r ++ '\n' :: ('\n' :: corpusOf rs')).drop (blockOf r).length =
        '\n' :: '\n' :: corpusOf rs' := by
      rw [List.drop_append_of_le_length (le_refl _), List.drop_length]
      rfl
    rw [hdrop]
    rw [show f3 + 2 = f3 + 1 + 1 from rfl]
    rw [finditerAux_skip (by decide) (f3 + 1) ('\n' :: corpusOf rs') (pos + (blockOf r).length)]
    rw [finditerAux_skip (by decide) f3 (corpusOf rs') (pos + (blockOf r).length + 1)]
    rw [finditerAux_corpus rs' f3 (pos + (blockOf r).length + 1 + 1) hv2 (by omega)]
    have harith : pos + (blockOf r).length + 1 + 1 = pos + (blockOf r).length + 2 := by omega
    rw [harith, spansFrom]

theorem finditer_corpus (rs : List RecordData) (hv : ∀ r ∈ rs, ShapeValid r) :
    finditer (corpusOf rs) = spansFrom 0 rs := by
  unfold finditer
  exact finditerAux_corpus rs _ 0 hv (by omega)

theorem isPrefixOf_self_append (l x : List Char) : l.isPrefixOf (l ++ x) = true := by
  induction l with
  | nil => simp [List.isPrefixOf]
  | cons c t ih => simp [List.isPrefixOf, ih]

theorem splitOnSepAux_no_occ (sep : List Char) :
    ∀ (b acc : List Char) (fuel : Nat), b.length ≤ fuel →
      (∀ i, sep.isPrefixOf (b.drop i) = false) →
      splitOnSepAux sep fuel acc b = [acc.reverse ++ b]
  | [], acc, fuel, _, _ => by
    cases fuel <;> simp [splitOnSepAux]
  | c :: t, acc, fuel, hf, hocc => by
    cases fuel with
    | zero => simp at hf
    | succ f =>
      have h0 : sep.isPrefixOf (c :: t) = false := by simpa using hocc 0
      simp only [splitOnSepAux]
      rw [h0]
      simp only [Bool.false_eq_true, if_false]
      rw [splitOnSepAux_no_occ sep t (c :: acc) f
        (by simp at hf ⊢; omega) (fun i => by simpa using hocc (i + 1))]
      simp

theorem splitOnSepAux_boundary (sep : List Char) (hsep : sep ≠ []) :
    ∀ (a b acc : List Char) (fuel : Nat), a.length + b.length + 1 ≤ fuel →
      (∀ i, i < a.length → sep.isPrefixOf ((a ++ sep ++ b).drop i) = false) →
      splitOnSepAux sep fuel acc (a ++ sep ++ b) =
        (acc.reverse ++ a) :: splitOnSepAux sep (fuel - (a.length + 1)) [] b
  | [], b, acc, fuel, hf, _ => by
    cases fuel with
    | zero => omega
    | succ f =>
      cases hs : sep with
      | nil => exact absurd hs hsep
      | cons s0 st =>
        show splitOnSepAux (s0 :: st) (f + 1) acc ((s0 :: st) ++ b) = _
        rw [show (s0 :: st) ++ b = s0 :: (st ++ b) from rfl]
        simp only [splitOnSepAux]
        rw [show s0 :: (st ++ b) = (s0 :: st) ++ b from rfl]
        rw [isPrefixOf_self_append]
        simp only [if_pos]
        rw [List.drop_append_of_le_length (le_refl _), List.drop_length]
        simp
  | c :: a', b, acc, fuel, hf, hocc => by
    cases fuel with
    | zero => simp at hf
    | succ f =>
      have h0 : sep.isPrefixOf ((c :: a') ++ sep ++ b) = false := by
        have := hocc 0 (by simp)
        simpa using this
      show splitOnSepAux sep (f + 1) acc (c :: (a' ++ sep ++ b)) = _
      simp only [splitOnSepAux]
      rw [show c :: (a' ++ sep ++ b) = (c :: a') ++ sep ++ b from rfl]
      rw [h0]
      rw [splitOnSepAux_boundary sep hsep a' b (c :: acc) f
        (by simp at hf ⊢; omega)
        (fun i hi => by
          have := hocc (i + 1) (by simp; omega)
          simpa using this)]
      simp only [List.reverse_cons, List.length_cons]
      simp

theorem splitOnSep_two_parts (sep : List Char) (hsep : sep ≠ []) (a b : List Char)
    (hocc1 : ∀ i, i < a.length → sep.isPrefixOf ((a ++ sep ++ b).drop i) = false)
    (hocc2 : ∀ i, sep.isPrefixOf (b.drop i) = false) :
    splitOnSep sep (a ++ sep ++ b) = [a, b] := by
  have hsl : 1 ≤ sep.length := by
    cases sep with
    | nil => exact absurd rfl hsep
    | cons s0 st => simp
  unfold splitOnSep
  rw [if_neg hsep]
  rw [splitOnSepAux_boundary sep hsep a b []
    (a ++ sep ++ b).length (by simp; omega) hocc1]
  rw [splitOnSepAux_no_occ sep b []
    ((a ++ sep ++ b).length - (a.length + 1)) (by simp; omega) hocc2]
  simp

theorem noTwoNl_line_append :
    ∀ (l w : List Char), '\n' ∉ l → noTwoNl w = true → noTwoNl (l ++ w) = true
  | [], w, _, hw => by simpa using hw
  | c :: l', w, hl, hw => by
    have hc : c ≠ '\n' := fun h => hl (h ▸ List.mem_cons_self c l')
    have hl' : '\n' ∉ l' := fun h => hl (List.mem_cons_of_mem c h)
    have ih := noTwoNl_line_append l' w hl' hw
    cases hlw : l' ++ w with
    | nil =>
      show noTwoNl (c :: (l' ++ w)) = true
      rw [hlw]
      simp [noTwoNl]
    | cons d rest =>
      show noTwoNl (c :: (l' ++ w)) = true
      rw [hlw] at ih ⊢
      simp [noTwoNl, hc, ih]

theorem noTwoNl_tail {c : Char} {rest : List Char}
    (h : noTwoNl (c :: rest) = true) : noTwoNl rest = true := by
  cases rest with
  | nil => rfl
  | cons d r2 =>
    simp only [noTwoNl, Bool.and_eq_true] at h
    exact h.2

theorem noOcc_of_noTwoNl :
    ∀ (a w : List Char), noTwoNl (a ++ [ '\n' ]) = true →
      ∀ i, i < a.length → pgnDelim.isPrefixOf ((a ++ '\n' :: w).drop i) = false
  | [], w, _, i, hi => by simp at hi
  | c :: a', w, hnn, i, hi => by
    cases i with
    | zero =>
      show pgnDelim.isPrefixOf (c :: (a' ++ '\n' :: w)) = false
      cases ha' : a' with
      | nil =>
        have hc : c ≠ '\n' := by
          intro hcc
          rw [ha', hcc] at hnn
          simp [noTwoNl] at hnn
        simp [pgnDelim, List.isPrefixOf, hc]
        exact fun h => hc h.symm
      | cons d a'' =>
        have hcd : ¬(c = '\n' ∧ d = '\n') := by
          intro ⟨hc, hd⟩
          rw [ha', hc, hd] at hnn
          simp [noTwoNl] at hnn
        show pgnDelim.isPrefixOf (c :: (d :: a'' ++ '\n' :: w)) = false
        by_cases hc : c = '\n'
        · have hd : d ≠ '\n' := fun hd => hcd ⟨hc, hd⟩
          simp [pgnDelim, List.isPrefixOf, hc, hd]
          exact fun h => hd h.symm
        · simp [pgnDelim, List.isPrefixOf, hc]
          exact fun h => absurd h.symm hc
    | succ j =>
      show pgnDelim.isPrefixOf ((a' ++ '\n' :: w).drop j) = false
      refine noOcc_of_noTwoNl a' w ?_ j (by simpa using hi)
      exact noTwoNl_tail hnn

theorem head_mismatch_no_occ {s0 : Char} {st : List Char} :
    ∀ (a z : List Char), (∀ c ∈ a, c ≠ s0) →
      ∀ i, i < a.length → (s0 :: st).isPrefixOf ((a ++ z).drop i) = false
  | [], z, _, i, hi => by simp at hi
  | c :: a', z, ha, i, hi => by
    cases i with
    | zero =>
      have hc : c ≠ s0 := ha c (List.mem_cons_self c a')
      show (s0 :: st).isPrefixOf (c :: (a' ++ z)) = false
      simp [List.isPrefixOf]
      intro h
      exact absurd h.symm hc
    | succ j =>
      show (s0 :: st).isPrefixOf ((a' ++ z).drop j) = false
      exact head_mismatch_no_occ a' z
        (fun x hx => ha x (List.mem_cons_of_mem c hx)) j (by simpa using hi)

theorem no_occ_of_not_mem {s0 : Char} {st : List Char} :
    ∀ (b : List Char), (∀ c ∈ b, c ≠ s0) →
      ∀ i, (s0 :: st).isPrefixOf (b.drop i) = false
  | [], _, i => by
    rw [List.drop_nil]
    simp [List.isPrefixOf]
  | c :: b', hb, i => by
    cases i with
    | zero =>
      have hc : c ≠ s0 := hb c (List.mem_cons_self c b')
      show (s0 :: st).isPrefixOf (c :: b') = false
      simp [List.isPrefixOf]
      intro h
      exact absurd h.symm hc
    | succ j =>
      show (s0 :: st).isPrefixOf (b'.drop j) = false
      exact no_occ_of_not_mem b' (fun x hx => hb x (List.mem_cons_of_mem c hx)) j

theorem joinLines_cons (l : List Char) (ls : List (List Char)) :
    joinLines (l :: ls) = l ++ '\n' :: joinLines ls := by
  simp [joinLines]

theorem joinLines_eq_intercal :
    ∀ (ls : List (List Char)), ls ≠ [] →
      joinLines ls = intercalNl ls ++ [ '\n' ]
  | [], h => absurd rfl h
  | [l], _ => by simp [joinLines, intercalNl]
  | l :: l2 :: ls, _ => by
    rw [joinLines_cons, joinLines_eq_intercal (l2 :: ls) (by simp)]
    show _ = l ++ '\n' :: intercalNl (l2 :: ls) ++ [ '\n' ]
    simp

theorem intercalNl_head_shape :
    ∀ (l : List Char) (ls : List (List Char)), ∃ w, intercalNl (l :: ls) = l ++ w
  | l, [] => ⟨[], by simp [intercalNl]⟩
  | l, l2 :: ls => ⟨'\n' :: intercalNl (l2 :: ls), rfl⟩

theorem noTwoNl_intercal :
    ∀ (ls : List (List Char)), (∀ l ∈ ls, l ≠ [] ∧ '\n' ∉ l) → ls ≠ [] →
      noTwoNl (intercalNl ls ++ [ '\n' ]) = true
  | [], _, h => absurd rfl h
  | [l], hl, _ => by
    show noTwoNl (l ++ [ '\n' ]) = true
    exact noTwoNl_line_append l [ '\n' ] (hl l (by simp)).2 rfl
  | l :: l2 :: ls, hl, _ => by
    have hll := hl l (List.mem_cons_self l _)
    have hl2 : ∀ x ∈ l2 :: ls, x ≠ [] ∧ '\n' ∉ x :=
      fun x hx => hl x (List.mem_cons_of_mem l hx)
    have ih := noTwoNl_intercal (l2 :: ls) hl2 (by simp)
    show noTwoNl ((l ++ '\n' :: intercalNl (l2 :: ls)) ++ [ '\n' ]) = true
    rw [List.append_assoc]
    refine noTwoNl_line_append l _ hll.2 ?_
    obtain ⟨w, hw⟩ := intercalNl_head_shape l2 ls
    obtain ⟨c2, t2, hl2h⟩ :=
      List.exists_cons_of_ne_nil (hl2 l2 (List.mem_cons_self l2 ls)).1
    have hc2 : c2 ≠ '\n' := by
      intro hc
      refine (hl2 l2 (List.mem_cons_self l2 ls)).2 ?_
      rw [hl2h, hc]
      exact List.mem_cons_self _ _
    have hshape : '\n' :: intercalNl (l2 :: ls) ++ [ '\n' ] =
        '\n' :: c2 :: (t2 ++ w ++ [ '\n' ]) := by
      rw [hw, hl2h]
      simp
    rw [hshape]
    have ih2 : noTwoNl (c2 :: (t2 ++ w ++ [ '\n' ])) = true := by
      have heq : intercalNl (l2 :: ls) ++ [ '\n' ] = c2 :: (t2 ++ w ++ [ '\n' ]) := by
        rw [hw, hl2h]
        simp
      rw [← heq]
      exact ih
    simp only [noTwoNl, Bool.and_eq_true]
    refine ⟨by simp [hc2], ?_⟩
    simpa [List.append_assoc] using ih2

theorem nl_not_mem_headerLine (h : HeaderData) (hh : ValidHeader h) :
    '\n' ∉ headerLineOf h := by
  obtain ⟨hn, hnc, hvne, hvc, hlast⟩ := hh
  intro hmem
  simp only [headerLineOf, List.mem_cons, List.mem_append] at hmem
  rcases hmem with h1 | hmem
  · exact absurd h1 (by decide)
  rcases hmem with h1 | hmem
  · exact absurd (hnc '\n' h1).1 (by decide)
  rcases hmem with h1 | hmem
  · exact absurd h1 (by decide)
  rcases hmem with h1 | hmem
  · exact absurd h1 (by decide)
  rcases hmem with h1 | h1
  · exact (hvc '\n' h1).2.2 rfl
  · exact absurd h1 (by decide)

theorem block_split (r : RecordData) (hr : ShapeValid r) :
    splitOnSep pgnDelim (blockOf r) =
      [intercalNl (r.headers.map headerLineOf), r.moves] := by
  obtain ⟨hne, hv, hmne, hmnl, _⟩ := hr
  have hlns : ∀ l ∈ r.headers.map headerLineOf, l ≠ [] ∧ '\n' ∉ l := by
    intro l hl
    obtain ⟨h, hh, rfl⟩ := List.mem_map.mp hl
    exact ⟨by simp [headerLineOf], nl_not_mem_headerLine h (hv h hh)⟩
  have hmapne : r.headers.map headerLineOf ≠ [] := by
    intro hmm
    exact hne (List.map_eq_nil_iff.mp hmm)
  have hshape : blockOf r = intercalNl (r.headers.map headerLineOf) ++ pgnDelim ++ r.moves := by
    unfold blockOf
    rw [joinLines_eq_intercal _ hmapne]
    simp [pgnDelim]
  rw [hshape]
  refine splitOnSep_two_parts pgnDelim (by simp [pgnDelim]) _ _ ?_ ?_
  · intro i hi
    have hnn := noTwoNl_intercal _ hlns hmapne
    have := noOcc_of_noTwoNl (intercalNl (r.headers.map headerLineOf)) ('\n' :: r.moves) hnn i hi
    rw [show intercalNl (r.headers.map headerLineOf) ++ pgnDelim ++ r.moves =
      intercalNl (r.headers.map headerLineOf) ++ '\n' :: ('\n' :: r.moves) from by simp [pgnDelim]]
    exact this
  · intro i
    exact no_occ_of_not_mem r.moves (fun c hc hcc => hmnl (by rw [← hcc]; exact hc)) i

theorem split_nl_intercal :
    ∀ (ls : List (List Char)), (∀ l ∈ ls, '\n' ∉ l) → ls ≠ [] →
      splitOnSep ([ '\n' ]) (intercalNl ls) = ls
  | [], _, h => absurd rfl h
  | [l], hl, _ => by
    show splitOnSep _ l = [l]
    unfold splitOnSep
    rw [if_neg (by simp)]
    rw [splitOnSepAux_no_occ _ l [] l.length (le_refl _)
      (no_occ_of_not_mem l (fun c hc hcc => (hl l (by simp)) (by rw [← hcc]; exact hc)))]
    simp
  | l :: l2 :: ls, hl, _ => by
    have hlnl : '\n' ∉ l := hl l (List.mem_cons_self l _)
    have hshape : intercalNl (l :: l2 :: ls) =
        l ++ [ '\n' ] ++ intercalNl (l2 :: ls) := by
      show l ++ '\n' :: intercalNl (l2 :: ls) = _
      simp
    unfold splitOnSep
    rw [if_neg (by simp)]
    rw [hshape]
    rw [splitOnSepAux_boundary ([ '\n' ]) (by simp) l (intercalNl (l2 :: ls)) [] _
      (by simp; omega)
      (fun i hi => by
        have hocc := @head_mismatch_no_occ '\n' [] l
          (([ '\n' ]) ++ intercalNl (l2 :: ls))
          (fun c hc hcc => absurd (hcc ▸ hc) hlnl) i hi
        simpa [List.append_assoc] using hocc)]
    have hIH := split_nl_intercal (l2 :: ls)
      (fun x hx => hl x (List.mem_cons_of_mem l hx)) (by simp)
    unfold splitOnSep at hIH
    rw [if_neg (by simp)] at hIH
    have hfuel : (l ++ [ '\n' ] ++ intercalNl (l2 :: ls)).length - (l.length + 1) =
        (intercalNl (l2 :: ls)).length := by
      simp
      omega
    rw [hfuel, hIH]
    simp

theorem spacequote_no_occ :
    ∀ (v : List Char), (∀ c ∈ v, c ≠ '"') →
      (∀ c, v.getLast? = some c → isPySpace c = false) →
      ∀ i, ([ ' ', '"' ]).isPrefixOf ((v ++ [ '"' ]).drop i) = false
  | [], _, _, i => by
    cases i with
    | zero => decide
    | succ j =>
      show ([ ' ', '"' ]).isPrefixOf (([ '"' ] : List Char).drop (j + 1)) = false
      rw [List.drop_succ_cons, List.drop_nil]
      decide
  | c :: v', hv, hlast, i => by
    cases i with
    | zero =>
      show ([ ' ', '"' ]).isPrefixOf (c :: (v' ++ [ '"' ])) = false
      by_cases hc : c = ' '
      · cases v' with
        | nil =>
          have := hlast c (by simp)
          rw [hc] at this
          exact absurd this (by decide)
        | cons d v'' =>
          have hd : d ≠ '"' := hv d (List.mem_cons_of_mem c (List.mem_cons_self d v''))
          show ([ ' ', '"' ]).isPrefixOf (c :: d :: (v'' ++ [ '"' ])) = false
          simp [List.isPrefixOf]
          intro h1 h2
          exact absurd h2.symm hd
      · simp [List.isPrefixOf]
        intro h1
        exact absurd h1.symm hc
    | succ j =>
      show ([ ' ', '"' ]).isPrefixOf ((v' ++ [ '"' ]).drop j) = false
      have hlast' : ∀ x, v'.getLast? = some x → isPySpace x = false := by
        intro x hx
        apply hlast
        cases v' with
        | nil => simp at hx
        | cons d v'' => rw [List.getLast?_cons_cons]; exact hx
      exact spacequote_no_occ v'
        (fun x hx => hv x (List.mem_cons_of_mem c hx)) hlast' j

theorem dropWhile_eq_self_of_not (p : Char → Bool) :
    ∀ (l : List Char), (∀ c ∈ l, p c = false) → l.dropWhile p = l
  | [], _ => rfl
  | c :: t, h => by
    rw [List.dropWhile_cons]
    rw [h c (List.mem_cons_self c t)]
    simp

theorem rstripQuote_value (v : List Char) (hv : ∀ c ∈ v, c ≠ '"') :
    rstripQuote (v ++ [ '"' ]) = v := by
  unfold rstripQuote
  rw [List.reverse_append]
  show ((([ '"' ] : List Char) ++ v.reverse).dropWhile (fun c => c == '"')).reverse = v
  rw [show ([ '"' ] : List Char) ++ v.reverse = '"' :: v.reverse from rfl]
  rw [List.dropWhile_cons]
  rw [show (('"' : Char) == '"') = true from by decide]
  simp only [if_pos]
  rw [dropWhile_eq_self_of_not _ v.reverse
    (fun c hc => by simp [hv c (List.mem_reverse.mp hc)])]
  simp

theorem parseHeaderLine_rendered (h : HeaderData) (hh : ValidHeader h) :
    parseHeaderLine (headerLineOf h) =
      some (String.mk (h.name.map pyLower), String.mk h.value) := by
  obtain ⟨hn, hnc, hvne, hvc, hlast⟩ := hh
  have hline : headerLineOf h =
      '[' :: ((h.name ++ ' ' :: '"' :: (h.value ++ [ '"' ])) ++ [ ']' ]) := by
    simp [headerLineOf]
  have hsplit : splitOnSep ([ ' ', '"' ]) (h.name ++ ' ' :: '"' :: (h.value ++ [ '"' ])) =
      [h.name, h.value ++ [ '"' ]] := by
    rw [show h.name ++ ' ' :: '"' :: (h.value ++ [ '"' ]) =
      h.name ++ ([ ' ', '"' ]) ++ (h.value ++ [ '"' ]) from by simp]
    refine splitOnSep_two_parts _ (by simp) _ _ ?_ ?_
    · intro i hi
      have hocc := @head_mismatch_no_occ ' ' ([ '"' ]) h.name
        (([ ' ', '"' ]) ++ (h.value ++ [ '"' ]))
        (fun c hc hcc => by
          have h2 := (hnc c hc).1
          rw [hcc] at h2
          exact absurd h2 (by decide)) i hi
      simpa [List.append_assoc] using hocc
    · intro i
      exact spacequote_no_occ h.value (fun c hc => (hvc c hc).1) hlast i
  have hlast2 : ('[' :: ((h.name ++ ' ' :: '"' :: (h.value ++ [ '"' ])) ++ [ ']' ])).getLast? =
      some ']' := by
    rw [show ('[' :: ((h.name ++ ' ' :: '"' :: (h.value ++ [ '"' ])) ++ [ ']' ])) =
      ('[' :: (h.name ++ ' ' :: '"' :: (h.value ++ [ '"' ]))) ++ [ ']' ] from by simp]
    rw [List.getLast?_concat]
  have hinner : ((('[' :: ((h.name ++ ' ' :: '"' :: (h.value ++ [ '"' ])) ++ [ ']' ])).drop 1).dropLast) =
      h.name ++ ' ' :: '"' :: (h.value ++ [ '"' ]) := by
    rw [List.drop_one, List.tail_cons, List.dropLast_concat]
  rw [hline]
  simp only [parseHeaderLine, List.head?_cons, hlast2, hinner, hsplit]
  rw [rstripQuote_value h.value (fun c hc => (hvc c hc).1)]

theorem buildDictAux_rendered :
    ∀ (hs : List HeaderData) (d : FieldMap), (∀ h ∈ hs, ValidHeader h) →
      buildDictAux d (hs.map headerLineOf) =
        .ok (hs.foldl
          (fun d h => updateMap d (String.mk (h.name.map pyLower))
            (PyValue.vstr (String.mk h.value))) d)
  | [], d, _ => rfl
  | h :: hs', d, hv => by
    rw [List.map_cons]
    show (match parseHeaderLine (headerLineOf h) with
      | some (n, v) => buildDictAux (updateMap d n (PyValue.vstr v)) (hs'.map headerLineOf)
      | none => .error (.pgnExc (.malformedHeader (String.mk (headerLineOf h))))) = _
    rw [parseHeaderLine_rendered h (hv h (List.mem_cons_self h hs'))]
    rw [List.foldl_cons]
    exact buildDictAux_rendered hs' _ (fun x hx => hv x (List.mem_cons_of_mem h hx))

theorem pgn_to_chessgame_block (r : RecordData) (hr : ShapeValid r) :
    pgn_to_chessgame (blockOf r) =
      (chessGameInit (dictOf r)).mapError PyError.pgnExc := by
  obtain ⟨hhne, hhv, hmne, hmnl, hmtok⟩ := hr
  unfold pgn_to_chessgame
  rw [block_split r ⟨hhne, hhv, hmne, hmnl, hmtok⟩]
  show (if ([] : List (List Char)) ≠ [] then Except.error (.pgnExc .wrongPartCount)
    else
      match buildDictAux emptyMap
          (splitOnSep ([ '\n' ]) (intercalNl (r.headers.map headerLineOf))) with
      | .error e => .error e
      | .ok d =>
        (chessGameInit (updateMap d ("moves") (PyValue.vstr (String.mk r.moves)))).mapError
          PyError.pgnExc) = _
  rw [if_neg (by simp)]
  rw [split_nl_intercal (r.headers.map headerLineOf)
    (fun l hl => by
      obtain ⟨h, hh, hlh⟩ := List.mem_map.mp hl
      rw [← hlh]
      exact nl_not_mem_headerLine h (hhv h hh))
    (by simpa using hhne)]
  rw [buildDictAux_rendered r.headers emptyMap hhv]
  rfl

theorem validHeader_of_b (h : HeaderData) (hb : validHeaderB h = true) : ValidHeader h := by
  unfold validHeaderB at hb
  simp only [Bool.and_eq_true, List.all_eq_true, Bool.not_eq_true',
    List.isEmpty_eq_false, Bool.not_eq_eq_eq_not, Bool.not_true, beq_eq_false_iff_ne,
    ne_eq] at hb
  obtain ⟨⟨⟨⟨h1, h2⟩, h3⟩, h4⟩, h5⟩ := hb
  refine ⟨h1, ?_, h3, ?_, ?_⟩
  · intro c hc
    have := h2 c hc
    simp only [Bool.and_eq_true, Bool.not_eq_true'] at this
    exact ⟨this.1.1, by simpa using this.1.2, by simpa using this.2⟩
  · intro c hc
    have := h4 c hc
    simp only [Bool.and_eq_true, Bool.not_eq_true'] at this
    exact ⟨by simpa using this.1.1, by simpa using this.1.2, by simpa using this.2⟩
  · intro c hc
    rw [hc] at h5
    simpa using h5

theorem shapeValid_of_b (r : RecordData) (hb : shapeValidB r = true) : ShapeValid r := by
  unfold shapeValidB at hb
  simp only [Bool.and_eq_true, List.all_eq_true, Bool.not_eq_true',
    List.isEmpty_eq_false, beq_iff_eq] at hb
  obtain ⟨⟨⟨⟨h1, h2⟩, h3⟩, h4⟩, h5⟩ := hb
  refine ⟨h1, fun h hh => validHeader_of_b h (h2 h hh), h3, ?_, h5⟩
  intro hmem
  have := h4 '\n' hmem
  simp at this

theorem corpusOf_append (a b : List RecordData) :
    corpusOf (a ++ b) = corpusOf a ++ corpusOf b := by
  simp [corpusOf]

theorem renderRecord_cons (r : RecordData) (rs : List RecordData) :
    corpusOf (r :: rs) = renderRecord r ++ corpusOf rs := by
  simp [corpusOf]

theorem eventsFrom_cons (file : List Char) (cl : Int) (pos : Nat) (r : RecordData)
    (rs : List RecordData) :
    eventsFrom file cl pos (r :: rs) =
      eventOf (cl + ((file.take pos).count '\n' : Int)) r ::
        eventsFrom file cl (pos + (renderRecord r).length) rs := rfl

theorem processMatches_spans :
    ∀ (rs : List RecordData) (pre : List Char) (cl : Int), (∀ r ∈ rs, ShapeValid r) →
      processMatches (pre ++ corpusOf rs) cl (spansFrom pre.length rs) =
        .ok (eventsFrom (pre ++ corpusOf rs) cl pre.length rs)
  | [], pre, cl, _ => rfl
  | r :: rs', pre, cl, hv => by
    have hr : ShapeValid r := hv r (List.mem_cons_self r rs')
    have hv' : ∀ x ∈ rs', ShapeValid x := fun x hx => hv x (List.mem_cons_of_mem r hx)
    have hx : extractL (pre ++ corpusOf (r :: rs')) pre.length
        (pre.length + (blockOf r).length) = blockOf r := by
      unfold extractL
      rw [List.drop_left, Nat.add_sub_cancel_left, corpusOf_cons, List.take_left]
    have htake : (pre ++ corpusOf (r :: rs')).take pre.length = pre := List.take_left pre _
    have hlen : (pre ++ renderRecord r).length = pre.length + (blockOf r).length + 2 := by
      simp [renderRecord]
      omega
    have hdata : (pre ++ renderRecord r) ++ corpusOf rs' = pre ++ corpusOf (r :: rs') := by
      rw [List.append_assoc, renderRecord_cons]
    have hIH := processMatches_spans rs' (pre ++ renderRecord r) cl hv'
    rw [hlen, hdata] at hIH
    simp only [spansFrom, processMatches]
    rw [hx, pgn_to_chessgame_block r hr]
    rw [eventsFrom_cons]
    have hposs : pre.length + (renderRecord r).length = pre.length + (blockOf r).length + 2 := by
      simp [renderRecord]
      omega
    rw [hposs]
    cases hgi : chessGameInit (dictOf r) with
    | ok g =>
      show (processMatches (pre ++ corpusOf (r :: rs')) cl
          (spansFrom (pre.length + (blockOf r).length + 2) rs')).map
          (fun out => GameResult.ok g :: out) = _
      rw [hIH]
      rw [show eventOf (cl + (((pre ++ corpusOf (r :: rs')).take pre.length).count '\n' : Int)) r =
        GameResult.ok g from by unfold eventOf; rw [hgi]]
      rfl
    | error reason =>
      show (processMatches (pre ++ corpusOf (r :: rs')) cl
          (spansFrom (pre.length + (blockOf r).length + 2) rs')).map
          (fun out => GameResult.rejected
            (cl + (((pre ++ corpusOf (r :: rs')).take pre.length).count '\n' : Int)) reason :: out) = _
      rw [hIH]
      rw [show eventOf (cl + (((pre ++ corpusOf (r :: rs')).take pre.length).count '\n' : Int)) r =
        GameResult.rejected
          (cl + (((pre ++ corpusOf (r :: rs')).take pre.length).count '\n' : Int)) reason from by
        unfold eventOf; rw [hgi]]
      rfl

theorem chunksOfAux_nil_arg (b : Nat) : ∀ fuel, chunksOfAux b fuel [] = []
  | 0 => rfl
  | _ + 1 => rfl

theorem chunksOf_single (b : Nat) (l : List Char) (hne : l ≠ []) (hb : l.length ≤ b) :
    chunksOf b l = [l] := by
  have hb0 : b ≠ 0 := by
    cases l with
    | nil => exact absurd rfl hne
    | cons c t => simp at hb; omega
  unfold chunksOf
  rw [if_neg hb0]
  cases l with
  | nil => exact absurd rfl hne
  | cons c t =>
    show (c :: t).take b :: chunksOfAux b t.length ((c :: t).drop b) = [c :: t]
    rw [List.take_of_length_le hb, List.drop_eq_nil_of_le hb, chunksOfAux_nil_arg]

theorem runChunks_one (st : PState) (c : List Char) (st2 : PState) (outs : List GameResult)
    (h : stepChunk st c = .ok (st2, outs)) :
    runChunks st [c] = .ok outs := by
  unfold runChunks
  rw [h]
  show Except.ok (outs ++ ([] : List GameResult)) = Except.ok outs
  rw [List.append_nil]

theorem parse_games_one_chunk (rs : List RecordData) (b : Nat)
    (hv : ∀ r ∈ rs, ShapeValid r) (hne : rs ≠ [])
    (hb : (corpusOf rs).length ≤ b) :
    parse_games (corpusOf rs) b = .ok (eventsFrom (corpusOf rs) 1 0 rs) := by
  have hcne : corpusOf rs ≠ [] := by
    cases rs with
    | nil => exact absurd rfl hne
    | cons r rs' =>
      have hlp : 0 < (corpusOf (r :: rs')).length := by
        rw [corpusOf_cons]
        simp
      exact List.length_pos.mp hlp
  have hpm : processMatches (corpusOf rs) 1 (spansFrom 0 rs) =
      .ok (eventsFrom (corpusOf rs) 1 0 rs) := processMatches_spans rs [] 1 hv
  obtain ⟨me, hme⟩ : ∃ me, (spansFrom 0 rs).getLast? = some me := by
    cases rs with
    | nil => exact absurd rfl hne
    | cons r rs' =>
      have hsne : spansFrom 0 (r :: rs') ≠ [] := by
        show (0, 0 + (blockOf r).length) ::
          spansFrom (0 + (blockOf r).length + 2) rs' ≠ []
        simp
      exact Option.isSome_iff_exists.mp (List.getLast?_isSome.mpr hsne)
  have hstep : stepChunk initState (corpusOf rs) =
      .ok ({ leftover := (corpusOf rs).drop me.2, lastEnd := some me.2,
             chunkStart := 1, chunkEnd := 1 + ((corpusOf rs).count '\n' : Int) },
           eventsFrom (corpusOf rs) 1 0 rs) := by
    unfold stepChunk
    simp only [initState, List.nil_append, List.count_nil, Nat.cast_zero, sub_zero]
    rw [finditer_corpus rs hv, hpm, hme]
  unfold parse_games
  rw [chunksOf_single b (corpusOf rs) hcne hb]
  exact runChunks_one _ _ _ _ hstep

theorem eventsFrom_good (file : List Char) (cl : Int) :
    ∀ (g1 : List RecordData) (games1 : List ChessGame) (rs2 : List RecordData) (pos : Nat),
      List.Forall₂ (fun r g => chessGameInit (dictOf r) = .ok g) g1 games1 →
      eventsFrom file cl pos (g1 ++ rs2) =
        games1.map GameResult.ok ++ eventsFrom file cl (pos + (corpusOf g1).length) rs2
  | [], games1, rs2, pos, h => by
    cases h
    simp [corpusOf]
  | r :: g1', games1, rs2, pos, h => by
    cases h with
    | cons hg htail =>
      rename_i g games1'
      rw [List.cons_append, eventsFrom_cons]
      rw [show eventOf (cl + ((file.take pos).count '\n' : Int)) r =
        GameResult.ok g from by unfold eventOf; rw [hg]]
      rw [eventsFrom_good file cl g1' games1' rs2 (pos + (renderRecord r).length) htail]
      rw [List.map_cons, List.cons_append]
      have hlen : pos + (renderRecord r).length + (corpusOf g1').length =
          pos + (corpusOf (r :: g1')).length := by
        rw [renderRecord_cons]
        simp
        omega
      rw [hlen]

/-- C2: per-record failures are isolated: a corpus of valid-shape records in
which the good records decode to games and one inserted record fails to
decode (e.g. missing a required header) parses -- in a single-chunk run --
to exactly the good games in source order with exactly one rejection
between them, at the bad record's source line. -/
theorem c2_isolation (g1 g2 : List RecordData) (bad : RecordData)
    (games1 games2 : List ChessGame) (reason : Reason) (b : Nat)
    (hv : ∀ r ∈ g1 ++ bad :: g2, ShapeValid r)
    (h1 : List.Forall₂ (fun r g => chessGameInit (dictOf r) = .ok g) g1 games1)
    (h2 : List.Forall₂ (fun r g => chessGameInit (dictOf r) = .ok g) g2 games2)
    (hbad : chessGameInit (dictOf bad) = .error reason)
    (hb : (corpusOf (g1 ++ bad :: g2)).length ≤ b) :
    parse_games (corpusOf (g1 ++ bad :: g2)) b =
      .ok (games1.map GameResult.ok ++
        GameResult.rejected (1 + ((corpusOf g1).count '\n' : Int)) reason ::
        games2.map GameResult.ok) := by
  rw [parse_games_one_chunk (g1 ++ bad :: g2) b hv (by simp) hb]
  apply congrArg
  rw [eventsFrom_good (corpusOf (g1 ++ bad :: g2)) 1 g1 games1 (bad :: g2) 0 h1]
  rw [Nat.zero_add]
  rw [eventsFrom_cons]
  rw [show (corpusOf (g1 ++ bad :: g2)).take (corpusOf g1).length = corpusOf g1 from by
    rw [corpusOf_append]
    exact List.take_left _ _]
  rw [show eventOf (1 + ((corpusOf g1).count '\n' : Int)) bad =
    GameResult.rejected (1 + ((corpusOf g1).count '\n' : Int)) reason from by
    unfold eventOf; rw [hbad]]
  have htail := eventsFrom_good (corpusOf (g1 ++ bad :: g2)) 1 g2 games2 []
    ((corpusOf g1).length + (renderRecord bad).length) h2
  rw [List.append_nil] at htail
  rw [show eventsFrom (corpusOf (g1 ++ bad :: g2)) 1
    ((corpusOf g1).length + (renderRecord bad).length + (corpusOf g2).length) [] = []
    from rfl] at htail
  rw [List.append_nil] at htail
  rw [htail]

set_option maxRecDepth 80000 in
/-- Witness for C2 at a concrete corpus: good record, record missing
`[WhiteElo ...]`, good record; the parse yields game, rejection at line 17,
game. -/
theorem c2_isolation_witness :
    parse_games (corpusOf [c2goodRec, c2badRec, c2goodRec]) 1024 =
      .ok [GameResult.ok p6game,
        GameResult.rejected 17 (Reason.attrNotFound ("whiteelo")),
        GameResult.ok p6game] :=
  c2_isolation [c2goodRec] [c2goodRec] c2badRec [p6game] [p6game]
    (Reason.attrNotFound ("whiteelo")) 1024
    (by
      intro r hr
      apply shapeValid_of_b
      simp only [List.cons_append, List.nil_append, List.mem_cons,
        List.not_mem_nil, or_false] at hr
      rcases hr with h | h | h <;> rw [h] <;> decide)
    (List.Forall₂.cons (by rfl) List.Forall₂.nil)
    (List.Forall₂.cons (by rfl) List.Forall₂.nil)
    (by rfl)
    (by decide)

